import Mathlib

/-!
# Verification of the Gourmand recipe-card ingredient model (`gourmand/reccard.py`)

A shallow embedding of the toolkit-independent core of `reccard.py`:
the `IngredientController` tree model (a `Gtk.TreeStore` of ingredient
rows and group rows), its undoable editing operations, the commit pass
that reconciles the tree with the backing store, the `ImageBox.commit`
helper and the `RecSelector.ok` dialog handler.

Python values that flow through the row dictionaries are modelled by
`PyVal`; a `Gtk.TreeStore` row is a `Row` (column 0 holds the
"persistent reference": an ingredient object, a `RecRef`, an integer
placeholder, a group string, or `None`); the store itself is a forest
of `Node`s.  Gtk tree iterators are modelled as paths (`List Nat`).
External collaborators that are not part of the reviewed file (the
database layer `rg.rd`, `Undo.UndoableObject`, `treeview_extras`) are
either taken as parameters or modelled from the spec, as marked.
-/

namespace Gourmand

/-- A Python value as it appears in the ingredient row dictionaries:
`None`, a string, an integer (Python `bool` is kept separate but
compares numerically, as in Python where `True == 1`). -/
inductive PyVal where
  | none
  | str (s : String)
  | int (n : Int)
  | bool (b : Bool)
  deriving DecidableEq, Repr

/-- Python `==` on the modelled values: `True == 1`, `False == 0`,
otherwise values of different types are unequal. -/
def pyEq : PyVal → PyVal → Bool
  | .none, .none => true
  | .str a, .str b => a == b
  | .int a, .int b => a == b
  | .bool a, .bool b => a == b
  | .bool a, .int b => (if a then (1 : Int) else 0) == b
  | .int a, .bool b => a == (if b then (1 : Int) else 0)
  | _, _ => false

/-- Python truthiness of the modelled values (`None`, `""`, `0`,
`False` are falsy). -/
def pyTruthy : PyVal → Bool
  | .none => false
  | .str s => s ≠ ""
  | .int n => n ≠ 0
  | .bool b => b

/-- Python `str()` of the modelled values. -/
def pyStr : PyVal → String
  | .none => "None"
  | .str s => s
  | .int n => toString n
  | .bool b => if b then "True" else "False"

/-- The attribute names a CPython `dict` instance actually has (its
methods).  `hasattr(d, a)` on a plain dict is true exactly for these;
in particular none of `amount`, `unit`, `item`, `ingkey`, `position`,
`inggroup`, `optional` is among them. -/
def dictAttrNames : List String :=
  ["clear", "copy", "fromkeys", "get", "items", "keys", "pop",
   "popitem", "setdefault", "update", "values"]

/-- `hasattr(d, a)` for a plain Python `dict` `d`. -/
def dictHasattr (a : String) : Bool := a ∈ dictAttrNames

/-- A Python dict with string keys, keeping insertion order (Python
dicts preserve insertion order; re-assigning an existing key keeps its
position). -/
abbrev RowDict : Type := List (String × PyVal)

/-- `d[k]` lookup (first binding; keys are unique by construction). -/
def rdGet (d : RowDict) (k : String) : Option PyVal :=
  (List.find? (fun p => p.1 == k) d).map Prod.snd

/-- `d[k] = v`: replace in place if the key exists, else append. -/
def rdSet (d : RowDict) (k : String) (v : PyVal) : RowDict :=
  if (List.find? (fun p => p.1 == k) d).isSome then
    List.map (fun p => if p.1 == k then (k, v) else p) d
  else
    List.concat d (k, v)

/-- `del d[k]`. -/
def rdDel (d : RowDict) (k : String) : RowDict :=
  List.filter (fun p => p.1 ≠ k) d

/-- `k in d`. -/
def rdHasKey (d : RowDict) (k : String) : Bool :=
  (List.find? (fun p => p.1 == k) d).isSome

/-- A backing-store ingredient object (an SQLAlchemy `RowProxy` in the
source).  Attribute reads `getattr(ing, att)` yield `PyVal`s;
`amount_str` is the value the external `rg.rd.get_amount_as_string`
returns for this object (taken as part of the object since that
function lives outside the reviewed file). -/
structure IngObject where
  id : Nat
  amount : PyVal
  unit : PyVal
  item : PyVal
  ingkey : PyVal
  position : PyVal
  inggroup : PyVal
  optional : PyVal
  deleted : Bool
  amount_str : String
  deriving DecidableEq, Repr

/-- `class RecRef`: a reference to another recipe used as an
ingredient (`refid`, `item`; `amount` is always `1`). -/
structure RecRef where
  refid : Nat
  item : String
  deriving DecidableEq, Repr

/-- The value stored in column 0 of a tree row: `None`, an ingredient
object, a `RecRef`, an integer placeholder for a new item, or the
`"GROUP ..."` string of a group header. -/
inductive Value where
  | vnone
  | obj (o : IngObject)
  | rref (r : RecRef)
  | intv (n : Nat)
  | strv (s : String)
  deriving DecidableEq, Repr

/-- Is the column-0 value a Python string (the code's
`isinstance(ing, str)` group test)? -/
def Value.isStr : Value → Bool
  | .strv _ => true
  | _ => false

/-- Python truthiness of a column-0 value (objects and `RecRef`s are
truthy; `None` is falsy; `0` and `""` are falsy). -/
def Value.truthy : Value → Bool
  | .vnone => false
  | .intv n => n ≠ 0
  | .strv s => s ≠ ""
  | _ => true

/-- One `Gtk.TreeStore` row: column 0 (the persistent reference),
columns 1–3 (amount, unit, item; Gtk string columns hold `None` until
set) and column 4 (the `optional` boolean, default `False`). -/
structure Row where
  v : Value
  amt : Option String
  unit : Option String
  item : Option String
  opt : Bool
  deriving DecidableEq, Repr

/-- A freshly inserted, not yet populated row. -/
def blankRow : Row := ⟨.vnone, none, none, none, false⟩

/-- A node of the ingredient tree: a row, its children, and whether
the view currently shows it expanded (`row_expanded`). -/
inductive Node where
  | mk (row : Row) (expanded : Bool) (children : List Node)

mutual
def nodeDecEq : (a b : Node) → Decidable (a = b)
  | .mk r1 e1 cs1, .mk r2 e2 cs2 =>
    match decEq r1 r2 with
    | isFalse h => isFalse (by intro he; injection he; contradiction)
    | isTrue h1 =>
      match decEq e1 e2 with
      | isFalse h => isFalse (by intro he; injection he; contradiction)
      | isTrue h2 =>
        match nodeListDecEq cs1 cs2 with
        | isFalse h => isFalse (by intro he; injection he; contradiction)
        | isTrue h3 => isTrue (by rw [h1, h2, h3])

def nodeListDecEq : (a b : List Node) → Decidable (a = b)
  | [], [] => isTrue rfl
  | [], _ :: _ => isFalse (by intro h; exact absurd h (by simp))
  | _ :: _, [] => isFalse (by intro h; exact absurd h (by simp))
  | a :: as, b :: bs =>
    match nodeDecEq a b with
    | isFalse h => isFalse (by intro he; injection he; contradiction)
    | isTrue h1 =>
      match nodeListDecEq as bs with
      | isFalse h => isFalse (by intro he; injection he; contradiction)
      | isTrue h2 => isTrue (by rw [h1, h2])
end

instance : DecidableEq Node := nodeDecEq

def Node.row : Node → Row
  | .mk r _ _ => r

def Node.expanded : Node → Bool
  | .mk _ e _ => e

def Node.children : Node → List Node
  | .mk _ _ cs => cs

/-- The tree model (`self.imodel`) is a forest of nodes. -/
abbrev Forest : Type := List Node

/-- A Gtk tree path: the index route from the top level to a row. -/
abbrev Path : Type := List Nat

mutual
/-- The column-0 values of a forest in preorder (the order in which
`get_iter_from_persistent_ref`'s loop visits rows). -/
def valsF : List Node → List Value
  | [] => []
  | n :: ns => valsN n ++ valsF ns

/-- The column-0 values of a node's subtree in preorder. -/
def valsN : Node → List Value
  | .mk r _ cs => r.v :: valsF cs
end

/-- Fetch the node at a path. -/
def getAt : List Node → List Nat → Option Node
  | _, [] => none
  | f, [i] => f[i]?
  | f, i :: is =>
    match f[i]? with
    | some n => getAt n.children is
    | none => none

/-- Replace the node at a path by applying `g` to it. -/
def modifyAt (g : Node → Node) : List Node → List Nat → List Node
  | f, [] => f
  | f, [i] =>
    match f[i]? with
    | some n => f.set i (g n)
    | none => f
  | f, i :: is =>
    match f[i]? with
    | some n => f.set i (.mk n.row n.expanded (modifyAt g n.children is))
    | none => f

/-- `imodel.remove(iter)`: delete the subtree at a path. -/
def removeAt : List Node → List Nat → List Node
  | f, [] => f
  | f, [i] => f.eraseIdx i
  | f, i :: is =>
    match f[i]? with
    | some n => f.set i (.mk n.row n.expanded (removeAt n.children is))
    | none => f

/-- `imodel.insert_after(None, sibling, None)`: insert a node as the
next sibling of the row at the given path (Gtk infers the parent from
the sibling). -/
def insertAfterAt (nw : Node) : List Node → List Nat → List Node
  | f, [] => f ++ [nw]
  | f, [i] => f.take (i + 1) ++ [nw] ++ f.drop (i + 1)
  | f, i :: is =>
    match f[i]? with
    | some n => f.set i (.mk n.row n.expanded (insertAfterAt nw n.children is))
    | none => f

/-- `imodel.append(parent)`: append a node as the last child of the
row at the given path. -/
def appendChildAt (nw : Node) (f : List Node) (p : List Nat) : List Node :=
  modifyAt (fun n => .mk n.row n.expanded (n.children ++ [nw])) f p

/-- Number of children of the node at a path (0 for an invalid path). -/
def childCountAt (f : List Node) (p : List Nat) : Nat :=
  match getAt f p with
  | some n => n.children.length
  | none => 0

/-- Column-0 value at a path (`imodel.get_value(iter, 0)`); `None` for
an invalid path. -/
def valueAt (f : List Node) (p : List Nat) : Value :=
  match getAt f p with
  | some n => n.row.v
  | none => .vnone

/-- Update the row of the node at a path (the `set_value` calls). -/
def setRowAt (f : List Node) (p : List Nat) (g : Row → Row) : List Node :=
  modifyAt (fun n => .mk (g n.row) n.expanded n.children) f p

/-- Modelled from the spec: `rg.rd.row_equal`, the database layer's
row comparison used as a fallback in `get_iter_from_persistent_ref`
(not part of the reviewed file).  Two backing-store rows are the same
row exactly when they are rows with the same database id; values that
are not database rows never compare equal this way. -/
def row_equal : Value → Value → Bool
  | .obj a, .obj b => a.id == b.id
  | _, _ => false

/-- The match test of `get_iter_from_persistent_ref`'s search loop:
`v == ref or self.rg.rd.row_equal(v, ref)`. -/
def matchesRef (v ref : Value) : Bool := v == ref || row_equal v ref

/-- `self.commited_items_converter`: a dict from pre-commit references
(integer placeholders / `RecRef`s) to the database objects the commit
created. -/
abbrev Conv : Type := List (Value × Value)

/-- `if ref in conv: ref = conv[ref]` (identity when absent). -/
def convGet (c : Conv) (ref : Value) : Value :=
  match List.find? (fun p => p.1 == ref) c with
  | some p => p.2
  | none => ref

/-- `conv[k] = v` with Python dict semantics (overwrite keeps the
key's position, otherwise append). -/
def convSet (c : Conv) (k v : Value) : Conv :=
  if (List.find? (fun p => p.1 == k) c).isSome then
    List.map (fun p => if p.1 == k then (k, v) else p) c
  else
    List.concat c (k, v)

mutual
/-- The search of `get_iter_from_persistent_ref` idealized as a full
preorder traversal (row, then its children, then the next sibling),
returning the path of the first row whose column-0 value matches.
The source's loop is NOT a full preorder traversal: when it leaves a
last child it climbs exactly one level (`iter_next(iter_parent(itr))`)
and ends if that parent has no next sibling, so it misses every row
after a last-child chain deeper than two levels.  The loop itself is
modelled step for step by `searchLoop` below; `get_iter_loop_eq`
proves the two traversals agree on models at most two levels deep
(`flat2F`), the regime in which this idealization is used. -/
def findF (ref : Value) : List Node → Option (List Nat)
  | [] => none
  | n :: ns =>
    match findN ref n with
    | some p => some (0 :: p)
    | none =>
      match findF ref ns with
      | some (i :: p) => some ((i + 1) :: p)
      | _ => none

/-- The search within one subtree: the node itself first (an empty
suffix), then its children. -/
def findN (ref : Value) : Node → Option (List Nat)
  | .mk r _ cs => if matchesRef r.v ref then some [] else findF ref cs
end

/-- `IngredientController.get_iter_from_persistent_ref`: remap through
`commited_items_converter`, then walk the model for the first matching
row — with the walk idealized as the full preorder search `findF`
(see its comment; `get_iter_loop` below is the exact loop, and the two
coincide on models at most two levels deep). -/
def get_iter_from_persistent_ref (conv : Conv) (f : Forest) (ref : Value) : Option Path :=
  findF (convGet conv ref) f

/-- `IngredientController.get_persistent_ref_from_iter`: the column-0
value of the row. -/
def get_persistent_ref_from_iter (f : Forest) (p : Path) : Value :=
  valueAt f p

/-- Lift an optional Gtk string column value into the dictionary. -/
def optStrPV : Option String → PyVal
  | none => .none
  | some s => .str s

/-- Store a `PyVal` into a Gtk string column. -/
def pvToOptStr : PyVal → Option String
  | .none => none
  | v => some (pyStr v)

/-- `String.splitOn ";" |>.headD ""`: Python's `s.split(";")[0]`. -/
def splitSemi (s : String) : String :=
  (s.splitOn ";").headD ""

/-- `IngredientController.get_extra_ingredient_attributes`: fill in
`ingkey` from the backing object when it has one, else derive it from
the item text. -/
def getExtra (ingObj : Value) (d : RowDict) : RowDict :=
  let fallback : RowDict :=
    if pyTruthy ((rdGet d "item").getD .none) then
      rdSet d "ingkey" (.str (splitSemi (pyStr ((rdGet d "item").getD .none))))
    else d
  match ingObj with
  | .obj o => if pyTruthy o.ingkey then rdSet d "ingkey" o.ingkey else fallback
  | _ => fallback

/-- `IngredientController.get_rowdict`: the dictionary describing a
row (columns 1–4 plus the extra `ingkey`). -/
def getRowdict (n : Node) : RowDict :=
  getExtra n.row.v
    [("amount", optStrPV n.row.amt), ("unit", optStrPV n.row.unit),
     ("item", optStrPV n.row.item), ("optional", .bool n.row.opt)]

/-- `IngredientController.update_ingredient_row`: set columns 1–4 from
the keyword arguments that are present and not `None` (the amount is
passed through `str()`); other keys are ignored. -/
def updateIngredientRow (d : RowDict) (r : Row) : Row :=
  let r := match rdGet d "amount" with
           | some v => if v ≠ .none then { r with amt := some (pyStr v) } else r
           | none => r
  let r := match rdGet d "unit" with
           | some v => if v ≠ .none then { r with unit := some (pyStr v) } else r
           | none => r
  let r := match rdGet d "item" with
           | some v => if v ≠ .none then { r with item := some (pyStr v) } else r
           | none => r
  match rdGet d "optional" with
  | some v => if v ≠ .none then { r with opt := pyTruthy v } else r
  | none => r

/-- The sibling path immediately after a path (where
`insert_after(None, sibling, None)` puts the new row). -/
def pathAfter : Path → Path
  | [] => []
  | [i] => [i + 1]
  | i :: is => i :: pathAfter is

/-- `IngredientController._new_iter_`: pick the insertion point for a
new blank row.  With a group iterator whose column 0 really is a
string, append inside the group; a non-string group iterator is
redirected to `prev_iter` (the "fix this old code" path); with a
previous iterator, insert after it; otherwise append or prepend at the
top level according to `fallback_on_append`. -/
def newIter (f : Forest) (groupIter prevIter : Option Path) (fallback : Bool) :
    Forest × Path :=
  let blank : Node := .mk blankRow false []
  match groupIter, prevIter with
  | some g, none =>
    if (valueAt f g).isStr then
      (appendChildAt blank f g, g ++ [childCountAt f g])
    else
      (insertAfterAt blank f g, pathAfter g)
  | _, _ =>
    match prevIter with
    | some p => (insertAfterAt blank f p, pathAfter p)
    | none => if fallback then (f ++ [blank], [f.length]) else ([blank] ++ f, [0])

/-- The mutable state of an `IngredientController`: the tree model,
the counter for new-item placeholders, the commit converter and the
tracked ingredient objects. -/
structure IngCtl where
  forest : Forest
  newItemCount : Nat
  conv : Conv
  objs : List IngObject
  deriving DecidableEq

/-- Python `int()`-view of a dictionary value, for `RecRef.refid`. -/
def pyNat : PyVal → Nat
  | .int n => n.toNat
  | .bool b => if b then 1 else 0
  | _ => 0

/-- The `item` argument of `RecRef(ingdict["refid"], ingdict.get("item", ""))`. -/
def itemStr (d : RowDict) : String :=
  match rdGet d "item" with
  | some (.str s) => s
  | _ => ""

/-- The column-0 value `add_ingredient_from_kwargs` gives a new row
(and the updated new-item counter): a `RecRef` when a truthy `refid`
is supplied, else the provided placeholder, else a fresh integer
placeholder. -/
def kwargsValue (d : RowDict) (placeholder : Option Value) (count : Nat) :
    Value × Nat :=
  let hasRef := match rdGet d "refid" with
                | some rv => pyTruthy rv
                | none => false
  if hasRef then
    (Value.rref ⟨pyNat ((rdGet d "refid").getD .none), itemStr d⟩, count)
  else
    match placeholder with
    | some pv => (pv, count)
    | none => (Value.intv count, count + 1)

/-- `IngredientController.add_ingredient_from_kwargs`: insert a blank
row, set its column-0 reference per `kwargsValue`, and fill the
columns from the dictionary. -/
def addIngredientFromKwargs (st : IngCtl) (groupIter prevIter : Option Path)
    (fallback : Bool) (placeholder : Option Value) (d : RowDict) : IngCtl × Path :=
  let (f1, p) := newIter st.forest groupIter prevIter fallback
  let (v0, cnt) := kwargsValue d placeholder st.newItemCount
  let f2 := setRowAt f1 p (fun r => updateIngredientRow d { r with v := v0 })
  ({ st with forest := f2, newItemCount := cnt }, p)

/-- `IngredientController.add_ingredient`: insert a row for a backing
ingredient object, filling the columns from the object (the amount via
the external `get_amount_as_string`, kept on the object as
`amount_str`).  Unless this is an undo, the object is also appended to
`ingredient_objects`. -/
def addIngredient (st : IngCtl) (i : IngObject) (prevIter groupIter : Option Path)
    (fallback : Bool) (isUndo : Bool) : IngCtl × Path :=
  let objs := if isUndo then st.objs else st.objs ++ [i]
  let (f1, p) := newIter st.forest groupIter prevIter fallback
  let f2 := setRowAt f1 p (fun r =>
    { r with v := .obj i, amt := some i.amount_str, unit := pvToOptStr i.unit,
             item := pvToOptStr i.item, opt := pyTruthy i.optional })
  ({ st with forest := f2, objs := objs }, p)

/-- Insert a node as the sibling immediately before the row at the
given path. -/
def insertBeforeAt (nw : Node) : List Node → List Nat → List Node
  | f, [] => nw :: f
  | f, [i] => f.take i ++ [nw] ++ f.drop i
  | f, i :: is =>
    match f[i]? with
    | some n => f.set i (.mk n.row n.expanded (insertBeforeAt nw n.children is))
    | none => f

/-- Modelled from the spec: `te.move_iter(imodel, c, None,
parent=groupiter, direction="after")` in `add_group` moves an existing
row to become the first child of the group (the caller reverses
`children_iters` first, so the selected rows end up inside the group
in their original order).  The rows are located by their references,
as `ingNewGroupCB.do_add_group` resolves recorded references just
before moving; `t` tracks the group's top-level index across the
removals. -/
def moveChildrenIn (f : Forest) (t : Nat) : List Value → Forest × Nat
  | [] => (f, t)
  | c :: cs =>
    match findF c f with
    | none => moveChildrenIn f t cs
    | some cp =>
      match getAt f cp with
      | none => moveChildrenIn f t cs
      | some cn =>
        let f1 := removeAt f cp
        let t1 := if cp.length == 1 && cp.headD 0 < t then t - 1 else t
        let f2 := modifyAt (fun n => .mk n.row n.expanded (cn :: n.children)) f1 [t1]
        moveChildrenIn f2 t1 cs

/-- `IngredientController.add_group`: insert a group header row.  With
no previous iterator, append or prepend at the top level; otherwise
climb to the previous iterator's top-level ancestor ("ALLOW NO
NESTING") and insert after it.  Column 0 becomes `"GROUP <name>"`,
column 1 the name; the selected rows are then moved inside. -/
def addGroup (f : Forest) (name : String) (prevIter : Option Path)
    (childrenRefs : List Value) (fallback : Bool) : Forest × Path :=
  let blank : Node := .mk blankRow false []
  let (f1, t) :=
    match prevIter with
    | none => if fallback then (f ++ [blank], f.length) else ([blank] ++ f, 0)
    | some p => (insertAfterAt blank f [p.headD 0], p.headD 0 + 1)
  let f2 := setRowAt f1 [t] (fun r => { r with v := .strv ("GROUP " ++ name), amt := some name })
  let (f3, t3) := moveChildrenIn f2 t childrenRefs.reverse
  (f3, [t3])

/-- `te.path_next(path, -1)`, modelled from the spec: the previous
path at the same level (the last index decremented); only invoked when
the last index is nonzero. -/
def pathPrev : Path → Path
  | [] => []
  | [i] => [i - 1]
  | i :: is => i :: pathPrev is

/-- `IngredientController._get_prev_path_`: the previous sibling's
path, or the parent's path for a first child, or nothing for the very
first top-level row. -/
def getPrevPath (p : Path) : Option Path :=
  if p.getLast? = some 0 then
    if p.length == 1 then none else some p.dropLast
  else some (pathPrev p)

/-- The `(deleted_dic, prev_ref, ing_obj)` triple of
`IngredientController._get_undo_info_for_iter_` (a `prev_ref` of
Python `None` is `Value.vnone`). -/
structure UndoRowInfo where
  dic : RowDict
  prevRef : Value
  ingObj : Value
  deriving DecidableEq

/-- `_get_undo_info_for_iter_`. -/
def getUndoInfoForIter (f : Forest) (p : Path) : UndoRowInfo :=
  let n := (getAt f p).getD (.mk blankRow false [])
  { dic := getRowdict n
  , prevRef := match getPrevPath p with
               | some pp => valueAt f pp
               | none => .vnone
  , ingObj := n.row.v }

/-- One element of the `undo_info` list captured by `delete_iters`:
the row's dictionary, previous reference, column-0 object, the same
triples for its children, and its expansion state. -/
structure DeleteUndoItem where
  dic : RowDict
  prevRef : Value
  ingObj : Value
  children : List UndoRowInfo
  expanded : Bool
  deriving DecidableEq

/-- The capture phase of `IngredientController.delete_iters`: record,
for every iterator whose parent is not itself among the deleted paths,
its reference and its undo information (children included). -/
def captureDeleteInfo (f : Forest) (iters : List Path) :
    List Value × List DeleteUndoItem :=
  let paths := iters
  iters.foldl
    (fun (acc : List Value × List DeleteUndoItem) itr =>
      let parentPath : Option Path :=
        if itr.length ≥ 2 then some itr.dropLast else none
      let parentSelected := match parentPath with
                            | some pp => decide (pp ∈ paths)
                            | none => false
      if parentSelected then acc
      else
        let info := getUndoInfoForIter f itr
        let n := (getAt f itr).getD (.mk blankRow false [])
        let children :=
          (List.range n.children.length).map (fun j => getUndoInfoForIter f (itr ++ [j]))
        let expanded := if n.children.length > 0 then n.expanded else false
        (acc.1 ++ [info.ingObj],
         acc.2 ++ [⟨info.dic, info.prevRef, info.ingObj, children, expanded⟩]))
    ([], [])

/-- `IngredientController.do_delete_iters`: resolve each reference in
turn and remove the row it designates (references that no longer
resolve are skipped with a message). -/
def doDeleteIters (conv : Conv) (refs : List Value) (f : Forest) : Forest :=
  refs.foldl
    (fun f ref =>
      match get_iter_from_persistent_ref conv f ref with
      | some p => removeAt f p
      | none => f)
    f

mutual
/-- `ingTree.expand_row(path, True)` applied to a subtree: a row with
children becomes expanded, recursively; childless rows stay
unexpanded. -/
def expandDeepN : Node → Node
  | .mk r _ cs => .mk r (!cs.isEmpty) (expandDeepF cs)

def expandDeepF : List Node → List Node
  | [] => []
  | n :: ns => expandDeepN n :: expandDeepF ns
end

/-- The children-restoring loop inside `do_undelete_iters`: the first
child is appended inside the freshly restored row, later children are
inserted after their recorded previous sibling; real ingredient
objects go through `add_ingredient` + `update_ingredient_row`, all
other references through `add_ingredient_from_kwargs` followed by
re-setting column 0.  Returns the state and the last inserted path
(the source keeps reassigning `itr`). -/
def undeleteChildrenLoop (gi0 : Path) :
    IngCtl → Path → Bool → List UndoRowInfo → IngCtl × Path
  | st, itrPath, _, [] => (st, itrPath)
  | st, itrPath, first, c :: cs =>
    let pi0 := get_iter_from_persistent_ref st.conv st.forest c.prevRef
    let gi : Option Path := if first then some gi0 else none
    let pi : Option Path := if first then none else pi0
    match c.ingObj with
    | .obj o =>
      let (st1, p1) := addIngredient st o pi gi false true
      let st2 := { st1 with forest := setRowAt st1.forest p1 (updateIngredientRow c.dic) }
      undeleteChildrenLoop gi0 st2 p1 false cs
    | io =>
      let (st1, p1) := addIngredientFromKwargs st gi pi false none c.dic
      let st2 := { st1 with forest := setRowAt st1.forest p1 (fun r => { r with v := io }) }
      undeleteChildrenLoop gi0 st2 p1 false cs

/-- Restore one deleted row inside `do_undelete_iters`.  A string
column 0 is restored as a group (named by the captured `amount`
column); an integer or falsy column 0 goes back through
`add_ingredient_from_kwargs` with itself as placeholder; an ingredient
object goes through `add_ingredient` (as an undo) plus
`update_ingredient_row`.  A `RecRef` falls into the `add_ingredient`
branch, which reads the nonexistent attribute `RecRef.unit` and raises
`AttributeError` — modelled as `none`.  Children are then restored and
the captured expansion is applied to the path the source's reassigned
`itr` variable last pointed at. -/
def undeleteOne (st : IngCtl) (it : DeleteUndoItem) : Option IngCtl :=
  let prevIter := get_iter_from_persistent_ref st.conv st.forest it.prevRef
  let step1 : Option (IngCtl × Path) :=
    match it.ingObj with
    | .strv s =>
      if s ≠ "" then
        let (f, p) := addGroup st.forest (pyStr ((rdGet it.dic "amount").getD .none))
          prevIter [] false
        some ({ st with forest := f }, p)
      else
        some (addIngredientFromKwargs st none prevIter false (some (.strv s)) it.dic)
    | .vnone => some (addIngredientFromKwargs st none prevIter false none it.dic)
    | .intv n => some (addIngredientFromKwargs st none prevIter false (some (.intv n)) it.dic)
    | .obj o =>
      let (st1, p1) := addIngredient st o prevIter none false true
      some ({ st1 with forest := setRowAt st1.forest p1 (updateIngredientRow it.dic) }, p1)
    | .rref _ => none
  match step1 with
  | none => none
  | some (st1, p1) =>
    let (st2, lastPath) :=
      match it.children with
      | [] => (st1, p1)
      | cs => undeleteChildrenLoop p1 st1 p1 true cs
    some (if it.expanded then
            { st2 with forest := modifyAt expandDeepN st2.forest lastPath }
          else st2)

/-- `IngredientController.do_undelete_iters` over the captured
`undo_info` list. -/
def doUndeleteIters (st : IngCtl) : List DeleteUndoItem → Option IngCtl
  | [] => some st
  | it :: its =>
    match undeleteOne st it with
    | none => none
    | some st1 => doUndeleteIters st1 its

/-- Total wrapper for `do_undelete_iters` (the `AttributeError` case
leaves the state unchanged, for use as a stored inverse action). -/
def doUndeleteItersTotal (info : List DeleteUndoItem) (st : IngCtl) : IngCtl :=
  (doUndeleteIters st info).getD st

/-! ## The commit pass (`IngredientController.commit_ingredients`) -/

/-- `getattr(ing, att)` for the seven attributes the commit pass
diffs. -/
def getattrIng (o : IngObject) : String → PyVal
  | "amount" => o.amount
  | "unit" => o.unit
  | "item" => o.item
  | "ingkey" => o.ingkey
  | "position" => o.position
  | "inggroup" => o.inggroup
  | "optional" => o.optional
  | _ => .none

/-- The seven attribute names of `commit_iter`'s diff loop. -/
def commitAtts : List String :=
  ["amount", "unit", "item", "ingkey", "position", "inggroup", "optional"]

/-- One step of the diff loop, exactly as written in the source:
`if hasattr(d, att): if getattr(ing, att) == d[att]: del d[att]`.
The `hasattr` is tested on the dict `d` itself. -/
def commitAttrDel (o : IngObject) (d : RowDict) (att : String) : RowDict :=
  if dictHasattr att then
    if pyEq (getattrIng o att) ((rdGet d att).getD .none) then rdDel d att else d
  else d

/-- The "Remove all unchanged attrs from dict" loop of `commit_iter`. -/
def commitAttrPass (o : IngObject) (d : RowDict) : RowDict :=
  commitAtts.foldl (commitAttrDel o) d

/-- The same loop with the membership test the surrounding code calls
for (`att in d` — the Python-2 `d.has_key(att)` this line descends
from): remove every attribute whose value equals the stored object's. -/
def commitAttrPassKeyed (o : IngObject) (d : RowDict) : RowDict :=
  commitAtts.foldl
    (fun d att =>
      if rdHasKey d att then
        if pyEq (getattrIng o att) ((rdGet d att).getD .none) then rdDel d att else d
      else d)
    d

/-- The collaborators `commit_ingredients` calls that live outside the
reviewed file: the range parser `parse_range` (from
`gourmand.importers.importer`), the database's
`add_ing_and_update_keydic` (a supply of fresh database objects,
indexed by add-call order) and the current recipe's id. -/
structure CommitEnv where
  parseRange : String → PyVal × PyVal
  news : Nat → IngObject
  recId : Nat

/-- The accumulating state of the commit traversal. -/
structure CommitSt where
  pos : Nat
  addIdx : Nat
  conv : Conv
  objs : List IngObject
  deletedList : List IngObject
  modifyCalls : List (IngObject × RowDict)
  addCalls : List RowDict
  ingPos : List Nat
  deriving DecidableEq

/-- The dictionary preparation shared by both `commit_iter` branches:
parse the amount, store the position and group. -/
def commitDictBase (env : CommitEnv) (group : PyVal) (n : Node) (pos : Nat) : RowDict :=
  let d0 := getRowdict n
  let d1 :=
    if pyTruthy ((rdGet d0 "amount").getD .none) then
      let pr := env.parseRange (pyStr ((rdGet d0 "amount").getD .none))
      let d := rdSet d0 "amount" pr.1
      if pyTruthy pr.2 then rdSet d "rangeamount" pr.2 else d
    else rdSet d0 "amount" .none
  let d2 := rdSet d1 "position" (.int pos)
  let d3 := rdSet d2 "inggroup" group
  match n.row.v with
  | .rref r => rdSet d3 "refid" (.int r.refid)
  | _ => d3

/-- The bookkeeping of `commit_iter`'s old-ingredient branch around an
already-diffed dictionary `d5`: drop the object from the pending
`deleted` list if present (else schedule `deleted = False`), clear a
stray deleted flag, and issue the `modify_ing_and_update_keydic` call
when the dictionary is nonempty. -/
def commitObjSt (o : IngObject) (s : CommitSt) (d5 : RowDict) : CommitSt :=
  let s1d6 :=
    if o ∈ s.deletedList then
      ({ s with deletedList := s.deletedList.erase o }, d5)
    else (s, rdSet d5 "deleted" (.bool false))
  let d7 := if o.deleted then rdSet s1d6.2 "deleted" (.bool false) else s1d6.2
  if d7 ≠ [] then
    { s1d6.1 with modifyCalls := s1d6.1.modifyCalls ++ [(o, d7)] }
  else s1d6.1

mutual
/-- `commit_iter` on one row: a string column 0 is a group whose
children are committed under its name; an ingredient object row
(`not isinstance(ing, (int, RecRef))`) is diffed against the store and
modified when the dictionary is nonempty; an integer or `RecRef` row
is added to the store as a fresh object that replaces the old
reference in column 0, in the converter and in `ingredient_objects`.
A `None` column 0 also selects the object branch, where reading
`ing.deleted` raises `AttributeError` — modelled as `none`. -/
def commitN (env : CommitEnv) (group : PyVal) (s : CommitSt) :
    Node → Option (Node × CommitSt)
  | .mk r e cs =>
    match r.v with
    | .strv _ =>
      let g2 := optStrPV r.amt
      match commitF env g2 s cs with
      | some (cs', s') => some (.mk r e cs', s')
      | none => none
    | .vnone => none
    | .obj o =>
      let d := commitDictBase env group (.mk r e cs) s.pos
      let s2 := commitObjSt o s (commitAttrPass o d)
      some (.mk r e cs, { s2 with pos := s.pos + 1, ingPos := s2.ingPos ++ [s.pos] })
    | v =>
      let d := commitDictBase env group (.mk r e cs) s.pos
      let d5 := rdSet d "recipe_id" (.int env.recId)
      let nw := env.news s.addIdx
      some (.mk { r with v := .obj nw } e cs,
        { s with
            addIdx := s.addIdx + 1,
            conv := convSet s.conv v (.obj nw),
            objs := s.objs ++ [nw],
            addCalls := s.addCalls ++ [d5],
            pos := s.pos + 1,
            ingPos := s.ingPos ++ [s.pos] })

/-- The `while i: pos = commit_iter(i, pos, group)` loops. -/
def commitF (env : CommitEnv) (group : PyVal) (s : CommitSt) :
    List Node → Option (List Node × CommitSt)
  | [] => some ([], s)
  | n :: ns =>
    match commitN env group s n with
    | none => none
    | some (n', s1) =>
      match commitF env group s1 ns with
      | none => none
      | some (ns', s2) => some (n' :: ns', s2)
end

/-- What `commit_ingredients` produced: the updated model, converter
and `ingredient_objects`, the `modify_ing_and_update_keydic` and
`add_ing_and_update_keydic` calls in order, the list finally passed to
`modify_ings(deleted, {"deleted": True})`, and the `(reference,
position)` pairs assigned to ingredient rows in traversal order. -/
structure CommitResult where
  forest : Forest
  conv : Conv
  objs : List IngObject
  modifyCalls : List (IngObject × RowDict)
  addCalls : List RowDict
  deletedPassed : List IngObject
  ingPos : List Nat
  deriving DecidableEq

/-- `IngredientController.commit_ingredients`: crawl the tree from a
copy of `ingredient_objects` (everything not encountered again has
been deleted), then drop the deleted objects from
`ingredient_objects` and flag them deleted in the store. -/
def commit_ingredients (env : CommitEnv) (conv0 : Conv) (objs0 : List IngObject)
    (f : Forest) : Option CommitResult :=
  let s0 : CommitSt := ⟨0, 0, conv0, objs0, objs0, [], [], []⟩
  match commitF env .none s0 f with
  | none => none
  | some (f', s) =>
    some
      { forest := f'
      , conv := s.conv
      , objs := s.deletedList.foldl (fun acc i => acc.erase i) s.objs
      , modifyCalls := s.modifyCalls
      , addCalls := s.addCalls
      , deletedPassed := s.deletedList
      , ingPos := s.ingPos }

mutual
/-- The number of rows the commit traversal assigns a position to: one
per non-group row, none for group headers, whose children are counted
instead (children of non-group rows are not visited by
`commit_iter`). -/
def ingRowCountF : List Node → Nat
  | [] => 0
  | n :: ns => ingRowCountN n + ingRowCountF ns

def ingRowCountN : Node → Nat
  | .mk r _ cs => if r.v.isStr then ingRowCountF cs else 1
end

mutual
/-- The backing ingredient objects sitting in column 0 of the rows the
commit traversal visits, in traversal order. -/
def objRowsF : List Node → List IngObject
  | [] => []
  | n :: ns => objRowsN n ++ objRowsF ns

def objRowsN : Node → List IngObject
  | .mk r _ cs =>
    match r.v with
    | .strv _ => objRowsF cs
    | .obj o => [o]
    | _ => []
end

mutual
/-- Only group rows carry children (the invariant of every reachable
model: ingredients are only ever inserted into or moved under group
headers). -/
def flatOkF : List Node → Bool
  | [] => true
  | n :: ns => flatOkN n && flatOkF ns

def flatOkN : Node → Bool
  | .mk r _ cs => (r.v.isStr || cs.isEmpty) && flatOkF cs
end

/-- Persistent references are unambiguous: no two distinct rows of the
model match one another under the search's `v == ref or row_equal`
test. -/
def refsUnique (f : Forest) : Prop :=
  (valsF f).Pairwise (fun a b => matchesRef a b = false ∧ matchesRef b a = false)

instance (f : Forest) : Decidable (refsUnique f) :=
  inferInstanceAs (Decidable (List.Pairwise _ _))

/-! ## Undo wiring of the editing callbacks -/

/-- Modelled from the spec: `Undo.UndoableObject` pairs an action with
an inverse action registered on the ingredient editor module's undo
history; `perform()` runs the action and records the object on the
history (the `Undo` module is outside the reviewed file).
`UndoableObjectWithInverseThatHandlesItsOwnUndo` is such an object
with a self-managing inverse. -/
structure UndoableObject where
  action : IngCtl → IngCtl
  inverse_action : IngCtl → IngCtl
  is_undo : Bool

/-- An ingredient editor module's controller plus its undo history. -/
structure EditorState where
  ctl : IngCtl
  history : List UndoableObject

/-- `UndoableObject.perform`: run the action and register the object
on the history. -/
def UndoableObject.perform (u : UndoableObject) (s : EditorState) : EditorState :=
  { ctl := u.action s.ctl, history := u :: s.history }

/-- The `Undo.UndoableObject` that `delete_iters` constructs: the
action deletes the captured references, the inverse restores the
captured undo information. -/
def deleteItersEntry (s : EditorState) (iters : List Path) (isUndo : Bool) :
    UndoableObject :=
  let ri := captureDeleteInfo s.ctl.forest iters
  { action := fun st => { st with forest := doDeleteIters st.conv ri.1 st.forest }
  , inverse_action := doUndeleteItersTotal ri.2
  , is_undo := isUndo }

/-- `IngredientController.delete_iters`: capture, build the undoable
object, `perform()`. -/
def delete_iters (s : EditorState) (iters : List Path) (isUndo : Bool) : EditorState :=
  (deleteItersEntry s iters isUndo).perform s

/-- Modelled from the spec: `te.move_iter(ts, itera, sibling=prev,
direction="before")` in `ingUpMover` — the row swaps places with its
previous sibling (rows already first in their level stay put). -/
def swapWithPrev (f : Forest) (p : Path) : Forest :=
  match p.getLast? with
  | some (_ + 1) =>
    match getAt f p with
    | some n => insertBeforeAt n (removeAt f p) (pathPrev p)
    | none => f
  | _ => f

/-- Modelled from the spec: `te.move_iter(ts, itera, sibling=next,
direction="after")` in `ingDownMover` — the row swaps places with its
next sibling (rows already last in their level stay put). -/
def swapWithNext (f : Forest) (p : Path) : Forest :=
  if (getAt f (pathAfter p)).isSome then
    match getAt f p with
    | some n => insertAfterAt n (removeAt f p) p
    | none => f
  else f

/-- `IngredientTreeUI.ingUpMover` over resolved paths (bottom-most
first, as the source reverses the list). -/
def ingUpMover (f : Forest) (ps : List (Option Path)) : Forest :=
  ps.reverse.foldl
    (fun f p? => match p? with
                 | some p => swapWithPrev f p
                 | none => f) f

/-- `IngredientTreeUI.ingDownMover` over resolved paths. -/
def ingDownMover (f : Forest) (ps : List (Option Path)) : Forest :=
  ps.reverse.foldl
    (fun f p? => match p? with
                 | some p => swapWithNext f p
                 | none => f) f

/-- The `Undo.UndoableObject` that `ingUpCB` constructs: move the
selected references up; the inverse moves them down. -/
def ingUpEntry (s : EditorState) (selPaths : List Path) : UndoableObject :=
  let refs := selPaths.map (valueAt s.ctl.forest)
  { action := fun st =>
      let ps := refs.map (get_iter_from_persistent_ref st.conv st.forest)
      { st with forest := ingUpMover st.forest ps }
  , inverse_action := fun st =>
      let ps := refs.map (get_iter_from_persistent_ref st.conv st.forest)
      { st with forest := ingDownMover st.forest ps }
  , is_undo := false }

/-- `IngredientTreeUI.ingUpCB`. -/
def ingUpCB (s : EditorState) (selPaths : List Path) : EditorState :=
  (ingUpEntry s selPaths).perform s

/-- The `Undo.UndoableObject` that `ingDownCB` constructs. -/
def ingDownEntry (s : EditorState) (selPaths : List Path) : UndoableObject :=
  let refs := selPaths.map (valueAt s.ctl.forest)
  { action := fun st =>
      let ps := refs.map (get_iter_from_persistent_ref st.conv st.forest)
      { st with forest := ingDownMover st.forest ps }
  , inverse_action := fun st =>
      let ps := refs.map (get_iter_from_persistent_ref st.conv st.forest)
      { st with forest := ingUpMover st.forest ps }
  , is_undo := false }

/-- `IngredientTreeUI.ingDownCB`. -/
def ingDownCB (s : EditorState) (selPaths : List Path) : EditorState :=
  (ingDownEntry s selPaths).perform s

/-- The `Undo.UndoableObject` that `ingNewGroupCB` constructs:
`do_add_group` resolves the recorded references, adds the group (the
selected rows become its children) and expands it; `do_unadd_group`
removes the row found under the `"GROUP <name>"` reference and
restores the captured per-row undo information. -/
def ingNewGroupEntry (s : EditorState) (groupName : String) (selPaths : List Path) :
    UndoableObject :=
  let undoInfo : List DeleteUndoItem := selPaths.map (fun i =>
    let u := getUndoInfoForIter s.ctl.forest i
    ⟨u.dic, u.prevRef, u.ingObj, [], false⟩)
  let selRefs := selPaths.map (valueAt s.ctl.forest)
  let prevRef : Option Value := selPaths.getLast?.map (valueAt s.ctl.forest)
  { action := fun st =>
      let prevIter := prevRef.bind (get_iter_from_persistent_ref st.conv st.forest)
      let fp := addGroup st.forest groupName prevIter selRefs true
      { st with forest := modifyAt expandDeepN fp.1 fp.2 }
  , inverse_action := fun st =>
      let f1 :=
        match get_iter_from_persistent_ref st.conv st.forest
            (.strv ("GROUP " ++ groupName)) with
        | some p => removeAt st.forest p
        | none => st.forest
      doUndeleteItersTotal undoInfo { st with forest := f1 }
  , is_undo := false }

/-- `IngredientTreeUI.ingNewGroupCB`. -/
def ingNewGroupCB (s : EditorState) (groupName : String) (selPaths : List Path) :
    EditorState :=
  (ingNewGroupEntry s groupName selPaths).perform s

/-- `IngredientEditorModule.add_ingredient_from_line` with the
external `rd.parse_ingredient` result supplied as `d` (when parsing
fails the source substitutes `{"item": line, "amount": None, "unit":
None}`); inserts through `add_new_ingredient` =
`add_ingredient_from_kwargs`. -/
def addIngredientFromLine (st : IngCtl) (d : RowDict)
    (groupIter prevIter : Option Path) : IngCtl × Path :=
  addIngredientFromKwargs st groupIter prevIter true none d

/-- The `UndoableObjectWithInverseThatHandlesItsOwnUndo` that
`add_with_undo` constructs around an `add_ingredient_from_line` call:
the action runs the insertion while `UndoableTreeStuff` records the
inserted row's reference; the inverse deletes the recorded row (the
reference the recording will capture is the fresh placeholder or
`RecRef` the dictionary determines). -/
def addWithUndoEntry (s : EditorState) (d : RowDict)
    (groupIter prevIter : Option Path) : UndoableObject :=
  let addedRef : Value := (kwargsValue d none s.ctl.newItemCount).1
  { action := fun st => (addIngredientFromLine st d groupIter prevIter).1
  , inverse_action := fun st =>
      { st with forest := doDeleteIters st.conv [addedRef] st.forest }
  , is_undo := false }

/-- `add_with_undo` applied to a single-line insertion. -/
def add_with_undo (s : EditorState) (d : RowDict)
    (groupIter prevIter : Option Path) : EditorState :=
  (addWithUndoEntry s d groupIter prevIter).perform s

/-! ## `ImageBox.commit` and `RecSelector.ok` -/

/-- A PIL image, abstractly (its pixel data). -/
abbrev PILImage := List Nat

/-- Serialized image bytes. -/
abbrev ImgBytes := List Nat

/-- The image state of an `ImageBox` (both fields are set together by
`set_from_bytes`, and cleared by `remove_image`). -/
structure ImageBox where
  image : Option PILImage
  thumbnail : Option PILImage
  deriving DecidableEq, Repr

/-- `ImageBox.commit`: with an image attached return the serialized
image and thumbnail (`iu.image_to_bytes` is external, supplied as
`toBytes`); with no image return `(None, None)`.  Serializing when the
thumbnail is absent would raise inside PIL — modelled as `none`. -/
def ImageBox.commit (toBytes : PILImage → ImgBytes) (b : ImageBox) :
    Option (Option ImgBytes × Option ImgBytes) :=
  match b.image with
  | some img =>
    match b.thumbnail with
    | some t => some (some (toBytes img), some (toBytes t))
    | none => none
  | none => some (none, none)

/-- A recipe row as `RecSelector.ok` sees it (id, title, and the
truthiness of its `yields` field). -/
structure RecRow where
  id : Nat
  title : String
  yields : PyVal
  deriving DecidableEq, Repr

/-- The ingredient dictionaries `RecSelector.ok` builds: a selected
recipe whose id equals the currently edited recipe's id only shows a
message and is skipped; every other recipe yields `{"amount":
str(...), "item": rec.title, "refid": rec.id}` (the amount comes from
the external `YieldSelector` dialog, supplied as `amountOf`, or is 1
without yields). -/
def recSelectorOkDicts (currentId : Nat) (amountOf : RecRow → PyVal) :
    List RecRow → List RowDict
  | [] => []
  | rec :: rest =>
    if rec.id = currentId then recSelectorOkDicts currentId amountOf rest
    else
      [("amount", .str (pyStr (if pyTruthy rec.yields then amountOf rec else .int 1))),
       ("item", .str rec.title), ("refid", .int (rec.id : Int))]
        :: recSelectorOkDicts currentId amountOf rest

/-- `RecSelector.ok`: each built dictionary goes through
`add_ingredient_from_kwargs(group_iter=pre_iter, **ingdic)`. -/
def recSelectorOk (st : IngCtl) (preIter : Option Path) (currentId : Nat)
    (amountOf : RecRow → PyVal) (recs : List RecRow) : IngCtl :=
  (recSelectorOkDicts currentId amountOf recs).foldl
    (fun st d => (addIngredientFromKwargs st preIter none true none d).1) st

/-! ## Lemmas about the persistent-reference search -/

theorem matchesRef_self (v : Value) : matchesRef v v = true := by
  simp [matchesRef]

theorem convGet_of_find_none (c : Conv) (r : Value)
    (h : List.find? (fun q => q.1 == r) c = none) : convGet c r = r := by
  simp [convGet, h]

theorem getAt_cons_succ (hd : Node) (tl : List Node) (i : Nat) (is : List Nat) :
    getAt (hd :: tl) ((i + 1) :: is) = getAt tl (i :: is) := by
  cases is with
  | nil => simp [getAt]
  | cons j js => simp [getAt]

theorem getAt_cons_zero_cons (hd : Node) (tl : List Node) (j : Nat) (js : List Nat) :
    getAt (hd :: tl) (0 :: j :: js) = getAt hd.children (j :: js) := by
  simp [getAt]

theorem getAt_cons_zero (hd : Node) (tl : List Node) :
    getAt (hd :: tl) [0] = some hd := by
  simp [getAt]

theorem valsF_cons (hd : Node) (tl : List Node) :
    valsF (hd :: tl) = valsN hd ++ valsF tl := by
  simp [valsF]

theorem valsN_mk (r : Row) (e : Bool) (cs : List Node) :
    valsN (.mk r e cs) = r.v :: valsF cs := by
  simp [valsN]

/-- A row reached by a path contributes its column-0 value to the
preorder value list. -/
theorem mem_valsF_of_getAt : ∀ (f : List Node) (p : List Nat) (n : Node),
    getAt f p = some n → n.row.v ∈ valsF f
  | [], [], _, h => by simp [getAt] at h
  | [], _ :: is, _, h => by cases is <;> simp [getAt] at h
  | _ :: _, [], _, h => by simp [getAt] at h
  | hd :: tl, 0 :: [], n, h => by
    rw [getAt_cons_zero] at h
    cases h
    rw [valsF_cons]
    cases hd with
    | mk r e cs => simp [valsN_mk, Node.row]
  | (.mk r e cs) :: tl, 0 :: j :: js, n, h => by
    rw [getAt_cons_zero_cons] at h
    simp only [Node.children] at h
    have ih := mem_valsF_of_getAt cs (j :: js) n h
    rw [valsF_cons, valsN_mk]
    simp only [List.mem_append, List.mem_cons]
    exact Or.inl (Or.inr ih)
  | hd :: tl, (i + 1) :: is, n, h => by
    rw [getAt_cons_succ] at h
    have ih := mem_valsF_of_getAt tl (i :: is) n h
    rw [valsF_cons]
    exact List.mem_append_right _ ih
termination_by f p => sizeOf f

mutual
/-- If nothing in a subtree matches, the search finds nothing. -/
theorem findN_none (ref : Value) : ∀ (n : Node),
    (∀ w ∈ valsN n, matchesRef w ref = false) → findN ref n = none
  | .mk r e cs, h => by
    have hr : matchesRef r.v ref = false := h r.v (by simp [valsN_mk])
    have hcs : ∀ w ∈ valsF cs, matchesRef w ref = false := by
      intro w hw
      exact h w (by simp [valsN_mk, hw])
    simp [findN, hr, findF_none ref cs hcs]

theorem findF_none (ref : Value) : ∀ (f : List Node),
    (∀ w ∈ valsF f, matchesRef w ref = false) → findF ref f = none
  | [], _ => by simp [findF]
  | hd :: tl, h => by
    have h1 : ∀ w ∈ valsN hd, matchesRef w ref = false := by
      intro w hw
      exact h w (by rw [valsF_cons]; exact List.mem_append_left _ hw)
    have h2 : ∀ w ∈ valsF tl, matchesRef w ref = false := by
      intro w hw
      exact h w (by rw [valsF_cons]; exact List.mem_append_right _ hw)
    simp [findF, findN_none ref hd h1, findF_none ref tl h2]
end

/-- In a list pairwise-unambiguous under `matchesRef`, a present value
is matched only by itself and occurs exactly once. -/
theorem pairwise_match_spec : ∀ (l : List Value) (v : Value),
    l.Pairwise (fun a b => matchesRef a b = false ∧ matchesRef b a = false) →
    v ∈ l → (∀ w ∈ l, matchesRef w v = true → w = v) ∧ l.count v ≤ 1
  | [], v, _, hmem => by simp at hmem
  | a :: l, v, hpw, hmem => by
    rcases List.pairwise_cons.mp hpw with ⟨ha, hl⟩
    rcases List.mem_cons.mp hmem with heq | hv
    · constructor
      · intro w hw hmatch
        rcases List.mem_cons.mp hw with heq2 | hw'
        · rw [heq2, ← heq]
        · exfalso
          have h2 := (ha w hw').2
          rw [← heq, hmatch] at h2
          simp at h2
      · have hnotin : v ∉ l := by
          intro hin
          have h2 := (ha v hin).1
          rw [← heq] at h2
          rw [matchesRef_self] at h2
          simp at h2
        rw [← heq, List.count_cons_self, List.count_eq_zero.mpr hnotin]
    · have ih := pairwise_match_spec l v hl hv
      have hane : a ≠ v := by
        intro heq
        have h2 := (ha v hv).1
        rw [heq, matchesRef_self] at h2
        simp at h2
      constructor
      · intro w hw hmatch
        rcases List.mem_cons.mp hw with heq2 | hw'
        · exfalso
          have h2 := (ha v hv).1
          rw [← heq2, hmatch] at h2
          simp at h2
        · exact ih.1 w hw' hmatch
      · rw [List.count_cons_of_ne (fun h => hane h.symm)]
        exact ih.2

/-- The search returns exactly the path of a row whose value matches
only itself among the model values and occurs at most once. -/
theorem findF_rt : ∀ (f : List Node) (p : List Nat) (n : Node) (ref : Value),
    getAt f p = some n → matchesRef n.row.v ref = true →
    (∀ w ∈ valsF f, matchesRef w ref = true → w = n.row.v) →
    (valsF f).count n.row.v ≤ 1 →
    findF ref f = some p
  | [], [], _, _, h, _, _, _ => by simp [getAt] at h
  | [], _ :: is, _, _, h, _, _, _ => by cases is <;> simp [getAt] at h
  | _ :: _, [], _, _, h, _, _, _ => by simp [getAt] at h
  | hd :: tl, 0 :: [], n, ref, h, hm, _, _ => by
    rw [getAt_cons_zero] at h
    cases h
    cases hd with
    | mk r e cs =>
      simp only [Node.row] at hm
      simp [findF, findN, hm]
  | (.mk r e cs) :: tl, 0 :: j :: js, n, ref, h, hm, huniq, hcount => by
    rw [getAt_cons_zero_cons] at h
    simp only [Node.children] at h
    have hmemc : n.row.v ∈ valsF cs := mem_valsF_of_getAt _ _ _ h
    have hvals : valsF (Node.mk r e cs :: tl) = r.v :: (valsF cs ++ valsF tl) := by
      rw [valsF_cons, valsN_mk]
      simp
    have hcount2 : (valsF cs).count n.row.v + (valsF tl).count n.row.v ≤
        (r.v :: (valsF cs ++ valsF tl)).count n.row.v := by
      rw [List.count_cons, List.count_append]
      omega
    have hr : matchesRef r.v ref = false := by
      cases hrv : matchesRef r.v ref with
      | false => rfl
      | true =>
        exfalso
        have heq : r.v = n.row.v := by
          apply huniq r.v _ hrv
          rw [hvals]
          exact List.mem_cons_self _ _
        have hc1 : 1 ≤ (valsF cs).count n.row.v := List.one_le_count_iff.mpr hmemc
        rw [hvals] at hcount
        rw [heq] at hcount
        rw [List.count_cons_self, List.count_append] at hcount
        omega
    have hrec : findF ref cs = some (j :: js) := by
      apply findF_rt cs (j :: js) n ref h hm
      · intro w hw hmatch
        apply huniq w _ hmatch
        rw [hvals]
        exact List.mem_cons_of_mem _ (List.mem_append_left _ hw)
      · rw [hvals] at hcount
        omega
    simp [findF, findN, hr, hrec]
  | hd :: tl, (i + 1) :: is, n, ref, h, hm, huniq, hcount => by
    rw [getAt_cons_succ] at h
    have hmemtl : n.row.v ∈ valsF tl := mem_valsF_of_getAt _ _ _ h
    have hctl : 1 ≤ (valsF tl).count n.row.v := List.one_le_count_iff.mpr hmemtl
    have hcapp : (valsF (hd :: tl)).count n.row.v =
        (valsN hd).count n.row.v + (valsF tl).count n.row.v := by
      rw [valsF_cons, List.count_append]
    have hhdnone : findN ref hd = none := by
      apply findN_none
      intro w hw
      cases hwm : matchesRef w ref with
      | false => rfl
      | true =>
        exfalso
        have heq : w = n.row.v := by
          apply huniq w _ hwm
          rw [valsF_cons]
          exact List.mem_append_left _ hw
        rw [heq] at hw
        have hchd : 1 ≤ (valsN hd).count n.row.v := List.one_le_count_iff.mpr hw
        omega
    have hrec : findF ref tl = some (i :: is) := by
      apply findF_rt tl (i :: is) n ref h hm
      · intro w hw hmatch
        apply huniq w _ hmatch
        rw [valsF_cons]
        exact List.mem_append_right _ hw
      · omega
    simp [findF, hhdnone, hrec]
termination_by f p => sizeOf f

mutual
/-- Total number of rows of a forest. -/
def countF : List Node → Nat
  | [] => 0
  | n :: ns => countN n + countF ns

def countN : Node → Nat
  | .mk _ _ cs => 1 + countF cs
end

/-- Every child row is itself childless: the model is at most two
levels deep (groups with their ingredients), the shape on which the
source's one-level climb realizes a full preorder traversal. -/
def flat2N : Node → Bool
  | .mk _ _ cs => cs.all (fun c => c.children.isEmpty)

def flat2F (f : List Node) : Bool := f.all flat2N

/-- `imodel.iter_next(itr)`: the next sibling, or `None` past the last
sibling. -/
def iterNext (f : Forest) (p : Path) : Option Path :=
  if (getAt f (pathAfter p)).isSome then some (pathAfter p) else none

/-- One advance of the iterator in `get_iter_from_persistent_ref`'s
loop, exactly as written: descend to the first child, else the next
sibling, else `iter_next(iter_parent(itr))` — the climb is one level
only, so after a last child whose parent is itself a last child (or
top-level last) the iterator becomes `None` even when unvisited rows
remain. -/
def iterAdvance (f : Forest) (p : Path) : Option Path :=
  match getAt f p with
  | none => none
  | some n =>
    if n.children.isEmpty then
      match iterNext f p with
      | some q => some q
      | none => if p.length ≤ 1 then none else iterNext f p.dropLast
    else some (p ++ [0])

/-- The `while itr:` loop of `get_iter_from_persistent_ref`, step for
step.  The fuel only realizes termination: every advance moves the
iterator strictly forward in preorder over at most `countF f` rows, so
`countF f` units always reach the loop's own exit. -/
def searchLoop (ref : Value) (f : Forest) : Nat → Path → Option Path
  | 0, _ => none
  | fuel + 1, p =>
    match getAt f p with
    | none => none
    | some n =>
      if matchesRef n.row.v ref then some p
      else
        match iterAdvance f p with
        | some q => searchLoop ref f fuel q
        | none => none

/-- `IngredientController.get_iter_from_persistent_ref` with the
search loop modelled exactly (`get_iter_from_persistent_ref` above
idealizes it as the full preorder search `findF`;
`get_iter_loop_eq` proves the two agree on models at most two levels
deep). -/
def get_iter_loop (conv : Conv) (f : Forest) (ref : Value) : Option Path :=
  searchLoop (convGet conv ref) f (countF f) [0]

theorem getElem?_drop_head {α : Type} : ∀ (f : List α) (k : Nat),
    f[k]? = (f.drop k).head?
  | [], k => by simp
  | _ :: _, 0 => by simp
  | _ :: f, k + 1 => by
    simp only [List.getElem?_cons_succ, List.drop_succ_cons]
    exact getElem?_drop_head f k

theorem getAt_one (f : Forest) (i : Nat) : getAt f [i] = f[i]? := by
  rw [getAt]

theorem getAt_pair (f : Forest) (i j : Nat) :
    getAt f [i, j] = (match f[i]? with
                      | some n => n.children[j]?
                      | none => none) := by
  rcases hfi : f[i]? with _ | n
  · simp [getAt, hfi]
  · simp [getAt, hfi]

/-- The preorder search never returns the empty path. -/
theorem findF_ne_nil (ref : Value) : ∀ (f : List Node) (p : List Nat),
    findF ref f = some p → p ≠ []
  | [], p, h => by
    rw [findF] at h
    exact absurd h (by simp)
  | n :: ns, p, h => by
    rw [findF] at h
    rcases h1 : findN ref n with _ | q
    · rw [h1] at h
      rcases h2 : findF ref ns with _ | q2
      · rw [h2] at h
        simp at h
      · rcases q2 with _ | ⟨k, rest⟩
        · rw [h2] at h
          simp at h
        · rw [h2] at h
          simp only [Option.some.injEq] at h
          rw [← h]
          simp
    · rw [h1] at h
      simp only [Option.some.injEq] at h
      rw [← h]
      simp

/-- The loop returns a row only when it matches: a reference matching
nothing resolves to `None`, on any model. -/
theorem searchLoop_none (ref : Value) (f : Forest)
    (h : ∀ w ∈ valsF f, matchesRef w ref = false) :
    ∀ (fuel : Nat) (p : Path), searchLoop ref f fuel p = none
  | 0, _ => by rw [searchLoop]
  | fuel + 1, p => by
    rw [searchLoop]
    rcases hg : getAt f p with _ | n
    · rfl
    · dsimp only
      rw [h n.row.v (mem_valsF_of_getAt f p n hg)]
      simp only [Bool.false_eq_true, if_false]
      rcases ha : iterAdvance f p with _ | q
      · rfl
      · exact searchLoop_none ref f h fuel q

theorem drop_succ_of_drop {α : Type} (l : List α) (j : Nat) (a : α) (t : List α)
    (h : l.drop j = a :: t) : l.drop (j + 1) = t := by
  rw [← List.tail_drop, h]
  rfl

theorem dropLast_two (i j : Nat) : List.dropLast [i, j] = [i] := rfl

theorem findF_nil (ref : Value) : findF ref [] = none := by
  rw [findF]

/-- Unfold the preorder search one row at a time past a non-matching
head. -/
theorem findF_cons_nomatch (ref : Value) (r : Row) (e : Bool) (cs ns : List Node)
    (hm : matchesRef r.v ref = false) :
    findF ref (.mk r e cs :: ns) =
      (match findF ref cs with
       | some p => some (0 :: p)
       | none =>
         match findF ref ns with
         | some (k :: rest) => some ((k + 1) :: rest)
         | _ => none) := by
  rw [findF, findN, hm]
  simp only [Bool.false_eq_true, if_false]

/-- The loop over the children of a two-level node: first match among
the remaining children, else whatever the continuation at the parent's
next sibling produces (the one-level climb). -/
theorem searchLoop_flat2_children (ref : Value) (f : Forest) (i : Nat)
    (r : Row) (e : Bool) (cs tl' : List Node) (R : Option Path)
    (hfi : f[i]? = some (.mk r e cs))
    (hleaves : ∀ c ∈ cs, c.children = [])
    (htl : f.drop (i + 1) = tl')
    (hcont : ∀ fl, fl ≥ countF tl' → searchLoop ref f fl [i + 1] = R) :
    ∀ (csuf : List Node) (j fuel : Nat), cs.drop j = csuf → csuf ≠ [] →
      fuel ≥ countF csuf + countF tl' →
      searchLoop ref f fuel [i, j] =
        (match findF ref csuf with
         | some (k :: rest) => some (i :: (j + k) :: rest)
         | _ => R)
  | [], _, _, _, hne, _ => absurd rfl hne
  | [c], j, fuel, hdrop, _, hfuel => by
    obtain ⟨rc, ec, cc⟩ := c
    have hcj : cs[j]? = some (.mk rc ec cc) := by
      rw [getElem?_drop_head, hdrop]
      rfl
    have hcc : cc = [] := by
      have hcm : (Node.mk rc ec cc) ∈ cs :=
        List.drop_subset _ _ (by rw [hdrop]; exact List.mem_cons_self _ _)
      have h1 := hleaves _ hcm
      simpa [Node.children] using h1
    subst hcc
    have hcnt : countF [Node.mk rc ec []] = 1 := by
      simp [countF, countN]
    rw [hcnt] at hfuel
    obtain ⟨fuel', rfl⟩ : ∃ k, fuel = k + 1 := ⟨fuel - 1, by omega⟩
    have hgij : getAt f [i, j] = some (.mk rc ec []) := by
      rw [getAt_pair, hfi]
      simp [Node.children, hcj]
    rw [searchLoop, hgij]
    dsimp only [Node.row]
    cases hm : matchesRef rc.v ref with
    | true =>
      rw [if_pos rfl]
      simp [findF, findN, hm]
    | false =>
      rw [if_neg (by simp)]
      have hd1 : cs.drop (j + 1) = [] := drop_succ_of_drop cs j _ _ hdrop
      have hnext : getAt f [i, j + 1] = none := by
        rw [getAt_pair, hfi]
        have h5 : cs[j + 1]? = none := by
          rw [getElem?_drop_head, hd1]
          rfl
        simp [Node.children, h5]
      cases htl2 : f[(i + 1)]? with
      | none =>
        have htl3 : tl' = [] := by
          have h7 := htl2
          rw [getElem?_drop_head, htl] at h7
          exact List.head?_eq_none_iff.mp h7
        have hR : R = none := by
          have h0 := hcont 0 (by simp [htl3, countF])
          rw [searchLoop] at h0
          exact h0.symm
        have hadv : iterAdvance f [i, j] = none := by
          rw [iterAdvance, hgij]
          simp [Node.children, iterNext, pathAfter, hnext, getAt_one, htl2,
            dropLast_two]
        rw [hadv]
        simp [findF, findN, hm, hR]
      | some m =>
        have hadv : iterAdvance f [i, j] = some [i + 1] := by
          rw [iterAdvance, hgij]
          simp [Node.children, iterNext, pathAfter, hnext, getAt_one, htl2,
            dropLast_two]
        rw [hadv]
        dsimp only
        rw [hcont fuel' (by omega)]
        simp [findF, findN, hm]
  | c :: c2 :: csuf'', j, fuel, hdrop, _, hfuel => by
    obtain ⟨rc, ec, cc⟩ := c
    have hcj : cs[j]? = some (.mk rc ec cc) := by
      rw [getElem?_drop_head, hdrop]
      rfl
    have hcc : cc = [] := by
      have hcm : (Node.mk rc ec cc) ∈ cs :=
        List.drop_subset _ _ (by rw [hdrop]; exact List.mem_cons_self _ _)
      have h1 := hleaves _ hcm
      simpa [Node.children] using h1
    subst hcc
    have hcnt : countF (Node.mk rc ec [] :: c2 :: csuf'') =
        1 + countF (c2 :: csuf'') := by
      simp [countF, countN]
    rw [hcnt] at hfuel
    obtain ⟨fuel', rfl⟩ : ∃ k, fuel = k + 1 := ⟨fuel - 1, by omega⟩
    have hgij : getAt f [i, j] = some (.mk rc ec []) := by
      rw [getAt_pair, hfi]
      simp [Node.children, hcj]
    rw [searchLoop, hgij]
    dsimp only [Node.row]
    cases hm : matchesRef rc.v ref with
    | true =>
      rw [if_pos rfl]
      simp [findF, findN, hm]
    | false =>
      rw [if_neg (by simp)]
      have hd1 : cs.drop (j + 1) = c2 :: csuf'' :=
        drop_succ_of_drop cs j _ _ hdrop
      have hnext : getAt f [i, j + 1] = some c2 := by
        rw [getAt_pair, hfi]
        have h5 : cs[j + 1]? = some c2 := by
          rw [getElem?_drop_head, hd1]
          rfl
        simp [Node.children, h5]
      have hadv : iterAdvance f [i, j] = some [i, j + 1] := by
        rw [iterAdvance, hgij]
        simp [Node.children, iterNext, pathAfter, hnext]
      rw [hadv]
      dsimp only
      rw [searchLoop_flat2_children ref f i r e cs tl' R hfi hleaves htl hcont
        (c2 :: csuf'') (j + 1) fuel' hd1 (by simp) (by omega)]
      rcases hff : findF ref (c2 :: csuf'') with _ | q
      · rw [findF_cons_nomatch ref rc ec [] (c2 :: csuf'') hm, findF_nil, hff]
      · rcases q with _ | ⟨k, rest⟩
        · exact absurd rfl (findF_ne_nil ref (c2 :: csuf'') [] hff)
        · rw [findF_cons_nomatch ref rc ec [] (c2 :: csuf'') hm, findF_nil, hff]
          have h6 : j + 1 + k = j + (k + 1) := by omega
          simp [h6]

/-- On a model at most two levels deep, the source's loop from a
top-level row realizes the full preorder search over the remaining
rows. -/
theorem searchLoop_flat2_top (ref : Value) (f : Forest) (hflat : flat2F f = true) :
    ∀ (tl : List Node) (i fuel : Nat), f.drop i = tl → fuel ≥ countF tl →
      searchLoop ref f fuel [i] =
        (match findF ref tl with
         | some (k :: rest) => some ((i + k) :: rest)
         | _ => none)
  | [], i, fuel, hdrop, _ => by
    have hfi : f[i]? = none := by
      rw [getElem?_drop_head, hdrop]
      rfl
    cases fuel with
    | zero =>
      rw [searchLoop]
      simp [findF]
    | succ fl =>
      rw [searchLoop, getAt_one, hfi]
      simp [findF]
  | n :: tl', i, fuel, hdrop, hfuel => by
    obtain ⟨r, e, cs⟩ := n
    have hfi : f[i]? = some (.mk r e cs) := by
      rw [getElem?_drop_head, hdrop]
      rfl
    have htl : f.drop (i + 1) = tl' := drop_succ_of_drop f i _ _ hdrop
    have hcnt : countF (Node.mk r e cs :: tl') = 1 + countF cs + countF tl' := by
      rw [countF, countN]
    rw [hcnt] at hfuel
    obtain ⟨fuel', rfl⟩ : ∃ k, fuel = k + 1 := ⟨fuel - 1, by omega⟩
    have ih : ∀ fl, fl ≥ countF tl' → searchLoop ref f fl [i + 1] =
        (match findF ref tl' with
         | some (k :: rest) => some ((i + 1 + k) :: rest)
         | _ => none) :=
      fun fl hfl => searchLoop_flat2_top ref f hflat tl' (i + 1) fl htl hfl
    rw [searchLoop, getAt_one, hfi]
    dsimp only [Node.row]
    cases hm : matchesRef r.v ref with
    | true =>
      rw [if_pos rfl]
      simp [findF, findN, hm]
    | false =>
      rw [if_neg (by simp)]
      cases cs with
      | nil =>
        cases htl2 : f[(i + 1)]? with
        | none =>
          have htl3 : tl' = [] := by
            have h7 := htl2
            rw [getElem?_drop_head, htl] at h7
            exact List.head?_eq_none_iff.mp h7
          have hadv : iterAdvance f [i] = none := by
            rw [iterAdvance, getAt_one, hfi]
            simp [Node.children, iterNext, pathAfter, getAt_one, htl2]
          rw [hadv]
          simp [findF, findN, hm, htl3]
        | some m =>
          have hadv : iterAdvance f [i] = some [i + 1] := by
            rw [iterAdvance, getAt_one, hfi]
            simp [Node.children, iterNext, pathAfter, getAt_one, htl2]
          rw [hadv]
          dsimp only
          rw [ih fuel' (by omega)]
          rcases hff : findF ref tl' with _ | q
          · simp [findF, findN, hm, hff]
          · rcases q with _ | ⟨k, rest⟩
            · simp [findF, findN, hm, hff]
            · simp only [findF, findN, hm, hff, Bool.false_eq_true, if_false]
              have h6 : i + 1 + k = i + (k + 1) := by omega
              rw [h6]
      | cons c cs' =>
        have hleaves : ∀ x ∈ (c :: cs'), x.children = [] := by
          have hmem : (Node.mk r e (c :: cs')) ∈ f :=
            List.drop_subset _ _ (by rw [hdrop]; exact List.mem_cons_self _ _)
          have h5 : flat2N (.mk r e (c :: cs')) = true := by
            rw [flat2F] at hflat
            exact List.all_eq_true.mp hflat _ hmem
          rw [flat2N] at h5
          intro x hx
          have h6 := List.all_eq_true.mp h5 x hx
          simpa using h6
        have hadv : iterAdvance f [i] = some [i, 0] := by
          rw [iterAdvance, getAt_one, hfi]
          simp [Node.children]
        rw [hadv]
        dsimp only
        rw [searchLoop_flat2_children ref f i r e (c :: cs') tl' _ hfi hleaves
          htl ih (c :: cs') 0 fuel' rfl (by simp) (by omega)]
        rcases hff : findF ref (c :: cs') with _ | q
        · rw [findF_cons_nomatch ref r e (c :: cs') tl' hm, hff]
          rcases hff2 : findF ref tl' with _ | q2
          · rfl
          · rcases q2 with _ | ⟨k, rest⟩
            · rfl
            · have h6 : i + 1 + k = i + (k + 1) := by omega
              simp [h6]
        · rcases q with _ | ⟨k, rest⟩
          · exact absurd rfl (findF_ne_nil ref (c :: cs') [] hff)
          · rw [findF_cons_nomatch ref r e (c :: cs') tl' hm, hff]
            simp

/-- On a model at most two levels deep, the exact loop and the
idealized full preorder search agree. -/
theorem get_iter_loop_eq (conv : Conv) (f : Forest) (ref : Value)
    (hflat : flat2F f = true) :
    get_iter_loop conv f ref = get_iter_from_persistent_ref conv f ref := by
  rw [get_iter_loop, get_iter_from_persistent_ref]
  rw [searchLoop_flat2_top (convGet conv ref) f hflat f 0 (countF f) rfl
    (le_refl _)]
  rcases hf : findF (convGet conv ref) f with _ | q
  · rfl
  · rcases q with _ | ⟨k, rest⟩
    · exact absurd rfl (findF_ne_nil _ f [] hf)
    · simp

/-- **C5**: In the exact model of the source search loop
(`get_iter_loop`, shown by `get_iter_loop_eq` to coincide with the
idealized preorder search on forests at most two levels deep, the shape
the one-level climb of the source loop handles): for a row whose
column-0 value occurs in exactly one row (it occurs at most once and no
other row's value matches it) and is not remapped by
`commited_items_converter`, `get_iter_from_persistent_ref` applied to
`get_persistent_ref_from_iter` of that row returns an iterator for
the same row; and a reference that no row of the tree matches resolves
to `None`. -/
theorem C5_persistent_ref_roundtrip (conv : Conv) (f : Forest) (p : Path) (n : Node)
    (hget : getAt f p = some n)
    (hconv : List.find? (fun q => q.1 == n.row.v) conv = none)
    (huniq : ∀ w ∈ valsF f, matchesRef w n.row.v = true → w = n.row.v)
    (hcount : (valsF f).count n.row.v ≤ 1)
    (hflat : flat2F f = true) (ref : Value) :
    get_iter_loop conv f (get_persistent_ref_from_iter f p) = some p ∧
    ((∀ w ∈ valsF f, matchesRef w (convGet conv ref) = false) →
      get_iter_loop conv f ref = none) := by
  constructor
  · have hval : get_persistent_ref_from_iter f p = n.row.v := by
      simp [get_persistent_ref_from_iter, valueAt, hget]
    rw [get_iter_loop_eq conv f _ hflat, hval, get_iter_from_persistent_ref,
      convGet_of_find_none conv _ hconv]
    exact findF_rt f p n n.row.v hget (matchesRef_self _) huniq hcount
  · intro hnone
    rw [get_iter_loop_eq conv f ref hflat, get_iter_from_persistent_ref]
    exact findF_none _ _ hnone

/-- A one-ingredient model used to instantiate `C5_persistent_ref_roundtrip`. -/
def c5obj : IngObject :=
  ⟨1, .none, .none, .str "a", .str "a", .int 0, .none, .bool false, false, "1"⟩

def c5node : Node := .mk ⟨.obj c5obj, some "1", none, some "a", false⟩ false []

def c5forest : Forest := [c5node]

theorem C5_witness :
    get_iter_loop [] c5forest
        (get_persistent_ref_from_iter c5forest [0]) = some [0] ∧
    ((∀ w ∈ valsF c5forest, matchesRef w (convGet [] (.intv 9)) = false) →
      get_iter_loop [] c5forest (.intv 9) = none) :=
  C5_persistent_ref_roundtrip [] c5forest [0] c5node (by decide) (by decide)
    (by decide) (by decide) (by decide) (.intv 9)

/-- **C10**: `ImageBox.commit` returns the serialized image and
thumbnail bytes when an image is attached, and `(None, None)` when no
image is attached. -/
theorem C10_imagebox_commit (toBytes : PILImage → ImgBytes) (b : ImageBox) :
    (∀ i t, b.image = some i → b.thumbnail = some t →
      ImageBox.commit toBytes b = some (some (toBytes i), some (toBytes t))) ∧
    (b.image = none → ImageBox.commit toBytes b = some (none, none)) := by
  constructor
  · intro i t hi ht
    simp [ImageBox.commit, hi, ht]
  · intro hi
    simp [ImageBox.commit, hi]

theorem C10_witness :
    ImageBox.commit id ⟨some [1, 2], some [3]⟩ = some (some [1, 2], some [3]) ∧
    ImageBox.commit id ⟨none, none⟩ = some (none, none) :=
  ⟨(C10_imagebox_commit id ⟨some [1, 2], some [3]⟩).1 [1, 2] [3] rfl rfl,
   (C10_imagebox_commit id ⟨none, none⟩).2 rfl⟩

/-- **C9**: `RecSelector.ok` never adds a recipe as an ingredient of
itself: every dictionary it builds carries a `refid` different from
the currently edited recipe's id (self-references are reported and
skipped), and the `RecRef` reference `add_ingredient_from_kwargs`
would create from such a dictionary never carries the current id. -/
theorem C9_no_self_reference (currentId : Nat) (amountOf : RecRow → PyVal)
    (recs : List RecRow) :
    ∀ d ∈ recSelectorOkDicts currentId amountOf recs,
      (∃ n : Nat, rdGet d "refid" = some (.int n) ∧ n ≠ currentId) ∧
      (∀ cnt r, (kwargsValue d none cnt).1 = .rref r → r.refid ≠ currentId) := by
  induction recs with
  | nil => intro d hd; simp [recSelectorOkDicts] at hd
  | cons rec rest ih =>
    intro d hd
    simp only [recSelectorOkDicts] at hd
    by_cases hcur : rec.id = currentId
    · rw [if_pos hcur] at hd
      exact ih d hd
    · rw [if_neg hcur] at hd
      rcases List.mem_cons.mp hd with heq | hmem
      · subst heq
        have href : rdGet
            [("amount", PyVal.str (pyStr (if pyTruthy rec.yields = true
                then amountOf rec else .int 1))),
             ("item", PyVal.str rec.title),
             ("refid", PyVal.int (rec.id : Int))] "refid"
            = some (.int (rec.id : Int)) := rfl
        refine ⟨⟨rec.id, href, hcur⟩, ?_⟩
        intro cnt r hr
        rw [kwargsValue, href] at hr
        by_cases hz : rec.id = 0
        · have htr : pyTruthy (PyVal.int (rec.id : Int)) = false := by
            simp [pyTruthy, hz]
          simp only [htr] at hr
          simp at hr
        · have htr : pyTruthy (PyVal.int (rec.id : Int)) = true := by
            simp only [pyTruthy, ne_eq, decide_not]
            simp
            exact_mod_cast hz
          simp only [htr, Option.getD_some, if_true] at hr
          simp only [Value.rref.injEq] at hr
          rw [← hr]
          simp only [pyNat, Int.toNat_natCast]
          exact hcur
      · exact ih d hmem

/-- Concrete instantiation of `C9_no_self_reference`. -/
theorem C9_witness :
    (∃ n : Nat,
        rdGet [("amount", PyVal.str "1"), ("item", PyVal.str "other"),
               ("refid", PyVal.int 2)] "refid" = some (.int n) ∧ n ≠ 1) ∧
    (∀ cnt r,
        (kwargsValue [("amount", PyVal.str "1"), ("item", PyVal.str "other"),
                      ("refid", PyVal.int 2)] none cnt).1 = .rref r →
        r.refid ≠ 1) :=
  C9_no_self_reference 1 (fun _ => .int 1)
    [⟨1, "self", .none⟩, ⟨2, "other", .none⟩]
    [("amount", PyVal.str "1"), ("item", PyVal.str "other"),
     ("refid", PyVal.int 2)] (by decide)

/-- **C2**: Every ingredient-tree editing operation — insertion via
`add_with_undo` around `add_ingredient_from_line`, `delete_iters`,
`ingUpCB`/`ingDownCB`, and `ingNewGroupCB` — constructs an
`Undo.UndoableObject` pairing the performed action with an inverse
action, registers it on the ingredient editor module's undo history by
`perform()`, and effects the edit through that registered action. -/
theorem C2_editing_operations_are_undoable
    (s : EditorState) (iters selPaths : List Path) (isUndo : Bool)
    (groupName : String) (d : RowDict) (gi pi : Option Path) :
    (delete_iters s iters isUndo =
      ⟨(deleteItersEntry s iters isUndo).action s.ctl,
       deleteItersEntry s iters isUndo :: s.history⟩) ∧
    ((deleteItersEntry s iters isUndo).inverse_action =
      doUndeleteItersTotal (captureDeleteInfo s.ctl.forest iters).2) ∧
    (ingUpCB s selPaths =
      ⟨(ingUpEntry s selPaths).action s.ctl, ingUpEntry s selPaths :: s.history⟩) ∧
    (ingDownCB s selPaths =
      ⟨(ingDownEntry s selPaths).action s.ctl, ingDownEntry s selPaths :: s.history⟩) ∧
    (ingNewGroupCB s groupName selPaths =
      ⟨(ingNewGroupEntry s groupName selPaths).action s.ctl,
       ingNewGroupEntry s groupName selPaths :: s.history⟩) ∧
    (add_with_undo s d gi pi =
      ⟨(addWithUndoEntry s d gi pi).action s.ctl,
       addWithUndoEntry s d gi pi :: s.history⟩) :=
  ⟨rfl, rfl, rfl, rfl, rfl, rfl⟩

/-- A stored ingredient whose row in the tree is attribute-for-attribute
unchanged: every one of the seven diffed attributes of the object
agrees with the row's dictionary. -/
def c1obj : IngObject :=
  { id := 1, amount := .none, unit := .str "c", item := .str "flour;x",
    ingkey := .str "flour", position := .int 0, inggroup := .none,
    optional := .bool false, deleted := false, amount_str := "" }

/-- The unchanged row backing `c1obj` (blank amount, matching unit,
item, optional). -/
def c1node : Node :=
  .mk { v := .obj c1obj, amt := none, unit := some "c",
        item := some "flour;x", opt := false } false []

def c1forest : Forest := [c1node]

/-- A commit environment for the one-row model (the range parser is
never consulted because the amount column is blank). -/
def c1env : CommitEnv :=
  { parseRange := fun s => (.str s, .none)
  , news := fun n =>
      { id := 100 + n, amount := .none, unit := .none, item := .none,
        ingkey := .none, position := .none, inggroup := .none,
        optional := .none, deleted := false, amount_str := "" }
  , recId := 7 }

/-- The dictionary `commit_iter` hands to
`modify_ing_and_update_keydic` for the unchanged row. -/
def c1dict : RowDict :=
  [("amount", .none), ("unit", .str "c"), ("item", .str "flour;x"),
   ("optional", .bool false), ("ingkey", .str "flour"),
   ("position", .int 0), ("inggroup", .none)]

/-- **C1**: the claim fails on the code.  For a row whose values all
equal the stored object's attributes, `commit_ingredients` still calls
`modify_ing_and_update_keydic` — with the full dictionary, no
attribute removed — because the diff loop tests `hasattr(d, att)` on
the dict `d` itself, which is false for every one of the seven
attribute names, so the deletions are dead code.  Under the membership
test the deleted code calls for (`commitAttrPassKeyed`, the Python-2
`d.has_key` this line descends from), the dictionary would be emptied
and no call would be made. -/
theorem C1_unchanged_row_is_still_modified :
    (commit_ingredients c1env [] [c1obj] c1forest).map (fun res => res.modifyCalls)
      = some [(c1obj, c1dict)] ∧
    commitAtts.all
      (fun att => pyEq (getattrIng c1obj att) ((rdGet c1dict att).getD .none))
      = true ∧
    commitAtts.all (fun att => !dictHasattr att) = true ∧
    commitAttrPassKeyed c1obj c1dict = [] :=
  ⟨by decide, by decide, by decide, by decide⟩

/-! ## Position numbering of the commit pass (C7) -/

/-- `commitObjSt` only touches `deletedList` and `modifyCalls`. -/
theorem commitObjSt_untouched (o : IngObject) (s : CommitSt) (d5 : RowDict) :
    (commitObjSt o s d5).ingPos = s.ingPos ∧
    (commitObjSt o s d5).pos = s.pos ∧
    (commitObjSt o s d5).addIdx = s.addIdx ∧
    (commitObjSt o s d5).objs = s.objs ∧
    (commitObjSt o s d5).conv = s.conv ∧
    (commitObjSt o s d5).addCalls = s.addCalls := by
  rw [commitObjSt]
  split <;> split <;> split <;> simp

mutual
theorem commitN_pos (env : CommitEnv) (g : PyVal) (s : CommitSt) :
    ∀ (n : Node) (n' : Node) (s' : CommitSt), commitN env g s n = some (n', s') →
      s'.ingPos = s.ingPos ++ List.range' s.pos (ingRowCountN n) ∧
      s'.pos = s.pos + ingRowCountN n
  | .mk r e cs, n', s', h => by
    rcases hr : r.v with _ | o | rr | k | str
    · rw [commitN, hr] at h
      simp at h
    · rw [commitN, hr] at h
      simp only [Option.some.injEq, Prod.mk.injEq] at h
      rw [← h.2]
      have hu := commitObjSt_untouched o s
        (commitAttrPass o (commitDictBase env g (.mk r e cs) s.pos))
      constructor
      · simp only [ingRowCountN, hr, Value.isStr, Bool.false_eq_true, if_false,
          List.range'_one]
        rw [← hu.1]
      · simp only [ingRowCountN, hr, Value.isStr, Bool.false_eq_true, if_false]
    · rw [commitN, hr] at h
      simp only [Option.some.injEq, Prod.mk.injEq] at h
      rw [← h.2]
      constructor
      · simp only [ingRowCountN, hr, Value.isStr, Bool.false_eq_true, if_false,
          List.range'_one]
      · simp only [ingRowCountN, hr, Value.isStr, Bool.false_eq_true, if_false]
    · rw [commitN, hr] at h
      simp only [Option.some.injEq, Prod.mk.injEq] at h
      rw [← h.2]
      constructor
      · simp only [ingRowCountN, hr, Value.isStr, Bool.false_eq_true, if_false,
          List.range'_one]
      · simp only [ingRowCountN, hr, Value.isStr, Bool.false_eq_true, if_false]
    · rw [commitN, hr] at h
      dsimp only at h
      rcases hc : commitF env (optStrPV r.amt) s cs with _ | p
      · rw [hc] at h
        simp at h
      · rw [hc] at h
        obtain ⟨cs', s2⟩ := p
        simp only [Option.some.injEq, Prod.mk.injEq] at h
        have ih := commitF_pos env (optStrPV r.amt) s cs cs' s2 hc
        rw [← h.2]
        simp only [ingRowCountN, hr, Value.isStr, if_pos rfl]
        exact ih

theorem commitF_pos (env : CommitEnv) (g : PyVal) (s : CommitSt) :
    ∀ (ns : List Node) (ns' : List Node) (s' : CommitSt),
      commitF env g s ns = some (ns', s') →
      s'.ingPos = s.ingPos ++ List.range' s.pos (ingRowCountF ns) ∧
      s'.pos = s.pos + ingRowCountF ns
  | [], ns', s', h => by
    rw [commitF] at h
    simp only [Option.some.injEq, Prod.mk.injEq] at h
    rw [← h.2]
    simp [ingRowCountF]
  | n :: ns, ns', s', h => by
    rw [commitF] at h
    rcases hn : commitN env g s n with _ | p1
    · rw [hn] at h
      simp at h
    · rw [hn] at h
      obtain ⟨n1, s1⟩ := p1
      dsimp only at h
      rcases hf : commitF env g s1 ns with _ | p2
      · rw [hf] at h
        simp at h
      · rw [hf] at h
        obtain ⟨ns2, s2⟩ := p2
        simp only [Option.some.injEq, Prod.mk.injEq] at h
        have ih1 := commitN_pos env g s n n1 s1 hn
        have ih2 := commitF_pos env g s1 ns ns2 s2 hf
        rw [← h.2]
        constructor
        · rw [ih2.1, ih1.1, ih1.2, List.append_assoc, ingRowCountF,
            List.range'_append_1, Nat.add_comm (ingRowCountF ns) (ingRowCountN n)]
        · rw [ih2.2, ih1.2, ingRowCountF]
          omega
end

/-- **C7**: `commit_ingredients` numbers the non-group rows with the
consecutive positions `0..n-1` in depth-first display order; group
header rows receive no position and consume no index. -/
theorem C7_commit_positions (env : CommitEnv) (conv0 : Conv)
    (objs0 : List IngObject) (f : Forest) (res : CommitResult)
    (h : commit_ingredients env conv0 objs0 f = some res) :
    res.ingPos = List.range (ingRowCountF f) := by
  rw [commit_ingredients] at h
  rcases hc : commitF env .none ⟨0, 0, conv0, objs0, objs0, [], [], []⟩ f with _ | p
  · rw [hc] at h
    simp at h
  · rw [hc] at h
    obtain ⟨f', s⟩ := p
    simp only [Option.some.injEq] at h
    have hp := commitF_pos env .none _ f f' s hc
    rw [← h]
    simp only []
    rw [hp.1]
    simp [List.range_eq_range']

theorem C7_witness :
    (commit_ingredients c1env [] [c1obj] c1forest).map (fun r => r.ingPos)
      = some (List.range (ingRowCountF c1forest)) := by
  rcases hres : commit_ingredients c1env [] [c1obj] c1forest with _ | res
  · exact absurd hres (by decide)
  · simp only [Option.map_some']
    rw [C7_commit_positions c1env [] [c1obj] c1forest res hres]

/-! ## Deleted-object tracking of the commit pass (C4) -/

theorem commitObjSt_deleted (o : IngObject) (s : CommitSt) (d5 : RowDict) :
    (commitObjSt o s d5).deletedList = s.deletedList.erase o := by
  rw [commitObjSt]
  by_cases hmem : o ∈ s.deletedList
  · simp only [if_pos hmem]
    split <;> split <;> rfl
  · simp only [if_neg hmem]
    rw [List.erase_of_not_mem hmem]
    split <;> split <;> rfl

theorem count_foldl_erase [DecidableEq α] (x : α) :
    ∀ (L l : List α),
      (L.foldl List.erase l).count x = l.count x - min (L.count x) (l.count x)
  | [], l => by simp
  | y :: L, l => by
    rw [List.foldl_cons]
    rw [count_foldl_erase x L (l.erase y)]
    by_cases hxy : x = y
    · subst hxy
      rw [List.count_erase_self, List.count_cons_self]
      omega
    · rw [List.count_erase_of_ne hxy, List.count_cons_of_ne hxy]

mutual
theorem commitN_deleted (env : CommitEnv) (g : PyVal) (s : CommitSt) :
    ∀ (n : Node) (n' : Node) (s' : CommitSt), commitN env g s n = some (n', s') →
      s'.deletedList = (objRowsN n).foldl List.erase s.deletedList
  | .mk r e cs, n', s', h => by
    rcases hr : r.v with _ | o | rr | k | str
    · rw [commitN, hr] at h
      simp at h
    · rw [commitN, hr] at h
      simp only [Option.some.injEq, Prod.mk.injEq] at h
      rw [← h.2]
      simp only [objRowsN, hr, List.foldl_cons, List.foldl_nil]
      exact commitObjSt_deleted o s _
    · rw [commitN, hr] at h
      simp only [Option.some.injEq, Prod.mk.injEq] at h
      rw [← h.2]
      simp [objRowsN, hr]
    · rw [commitN, hr] at h
      simp only [Option.some.injEq, Prod.mk.injEq] at h
      rw [← h.2]
      simp [objRowsN, hr]
    · rw [commitN, hr] at h
      dsimp only at h
      rcases hc : commitF env (optStrPV r.amt) s cs with _ | p
      · rw [hc] at h
        simp at h
      · rw [hc] at h
        obtain ⟨cs', s2⟩ := p
        simp only [Option.some.injEq, Prod.mk.injEq] at h
        rw [← h.2]
        simp only [objRowsN, hr]
        exact commitF_deleted env (optStrPV r.amt) s cs cs' s2 hc

theorem commitF_deleted (env : CommitEnv) (g : PyVal) (s : CommitSt) :
    ∀ (ns : List Node) (ns' : List Node) (s' : CommitSt),
      commitF env g s ns = some (ns', s') →
      s'.deletedList = (objRowsF ns).foldl List.erase s.deletedList
  | [], ns', s', h => by
    rw [commitF] at h
    simp only [Option.some.injEq, Prod.mk.injEq] at h
    rw [← h.2]
    simp [objRowsF]
  | n :: ns, ns', s', h => by
    rw [commitF] at h
    rcases hn : commitN env g s n with _ | p1
    · rw [hn] at h
      simp at h
    · rw [hn] at h
      obtain ⟨n1, s1⟩ := p1
      dsimp only at h
      rcases hf : commitF env g s1 ns with _ | p2
      · rw [hf] at h
        simp at h
      · rw [hf] at h
        obtain ⟨ns2, s2⟩ := p2
        simp only [Option.some.injEq, Prod.mk.injEq] at h
        rw [← h.2]
        rw [commitF_deleted env g s1 ns ns2 s2 hf,
          commitN_deleted env g s n n1 s1 hn]
        simp [objRowsF, List.foldl_append]
end

mutual
theorem commitN_objs (env : CommitEnv) (g : PyVal) (s : CommitSt) :
    ∀ (n : Node) (n' : Node) (s' : CommitSt), commitN env g s n = some (n', s') →
      ∃ added, s'.objs = s.objs ++ added ∧ ∀ x ∈ added, ∃ m, x = env.news m
  | .mk r e cs, n', s', h => by
    rcases hr : r.v with _ | o | rr | k | str
    · rw [commitN, hr] at h
      simp at h
    · rw [commitN, hr] at h
      simp only [Option.some.injEq, Prod.mk.injEq] at h
      rw [← h.2]
      refine ⟨[], ?_, by simp⟩
      have hu := commitObjSt_untouched o s
        (commitAttrPass o (commitDictBase env g (.mk r e cs) s.pos))
      simp only [List.append_nil]
      exact hu.2.2.2.1
    · rw [commitN, hr] at h
      simp only [Option.some.injEq, Prod.mk.injEq] at h
      rw [← h.2]
      exact ⟨[env.news s.addIdx], rfl, by
        intro x hx
        simp at hx
        exact ⟨s.addIdx, hx⟩⟩
    · rw [commitN, hr] at h
      simp only [Option.some.injEq, Prod.mk.injEq] at h
      rw [← h.2]
      exact ⟨[env.news s.addIdx], rfl, by
        intro x hx
        simp at hx
        exact ⟨s.addIdx, hx⟩⟩
    · rw [commitN, hr] at h
      dsimp only at h
      rcases hc : commitF env (optStrPV r.amt) s cs with _ | p
      · rw [hc] at h
        simp at h
      · rw [hc] at h
        obtain ⟨cs', s2⟩ := p
        simp only [Option.some.injEq, Prod.mk.injEq] at h
        rw [← h.2]
        exact commitF_objs env (optStrPV r.amt) s cs cs' s2 hc

theorem commitF_objs (env : CommitEnv) (g : PyVal) (s : CommitSt) :
    ∀ (ns : List Node) (ns' : List Node) (s' : CommitSt),
      commitF env g s ns = some (ns', s') →
      ∃ added, s'.objs = s.objs ++ added ∧ ∀ x ∈ added, ∃ m, x = env.news m
  | [], ns', s', h => by
    rw [commitF] at h
    simp only [Option.some.injEq, Prod.mk.injEq] at h
    rw [← h.2]
    exact ⟨[], by simp, by simp⟩
  | n :: ns, ns', s', h => by
    rw [commitF] at h
    rcases hn : commitN env g s n with _ | p1
    · rw [hn] at h
      simp at h
    · rw [hn] at h
      obtain ⟨n1, s1⟩ := p1
      dsimp only at h
      rcases hf : commitF env g s1 ns with _ | p2
      · rw [hf] at h
        simp at h
      · rw [hf] at h
        obtain ⟨ns2, s2⟩ := p2
        simp only [Option.some.injEq, Prod.mk.injEq] at h
        rw [← h.2]
        obtain ⟨a1, ha1, ha1n⟩ := commitN_objs env g s n n1 s1 hn
        obtain ⟨a2, ha2, ha2n⟩ := commitF_objs env g s1 ns ns2 s2 hf
        refine ⟨a1 ++ a2, ?_, ?_⟩
        · rw [ha2, ha1, List.append_assoc]
        · intro x hx
          rcases List.mem_append.mp hx with hx1 | hx2
          · exact ha1n x hx1
          · exact ha2n x hx2
end

mutual
/-- Under the only-groups-have-children invariant, an object backs
some visited row exactly when it appears in column 0 somewhere in the
tree. -/
theorem mem_objRowsN_iff (o : IngObject) : ∀ (n : Node), flatOkN n = true →
    (o ∈ objRowsN n ↔ Value.obj o ∈ valsN n)
  | .mk r e cs, hflat => by
    rw [flatOkN, Bool.and_eq_true] at hflat
    rcases hr : r.v with _ | o' | rr | k | str
    all_goals simp only [objRowsN, hr, valsN_mk]
    · have hcs : cs = [] := by
        have := hflat.1
        rw [hr] at this
        simp [Value.isStr] at this
        exact this
      subst hcs
      simp [valsF]
    · have hcs : cs = [] := by
        have := hflat.1
        rw [hr] at this
        simp [Value.isStr] at this
        exact this
      subst hcs
      simp [valsF]
    · have hcs : cs = [] := by
        have := hflat.1
        rw [hr] at this
        simp [Value.isStr] at this
        exact this
      subst hcs
      simp [valsF]
    · have hcs : cs = [] := by
        have := hflat.1
        rw [hr] at this
        simp [Value.isStr] at this
        exact this
      subst hcs
      simp [valsF]
    · rw [mem_objRowsF_iff o cs hflat.2]
      simp

theorem mem_objRowsF_iff (o : IngObject) : ∀ (ns : List Node), flatOkF ns = true →
    (o ∈ objRowsF ns ↔ Value.obj o ∈ valsF ns)
  | [], _ => by simp [objRowsF, valsF]
  | n :: ns, hflat => by
    rw [flatOkF, Bool.and_eq_true] at hflat
    rw [objRowsF, valsF_cons]
    simp only [List.mem_append]
    rw [mem_objRowsN_iff o n hflat.1, mem_objRowsF_iff o ns hflat.2]
end

/-- **C4**: After `commit_ingredients`, every previously tracked
ingredient object whose row no longer appears in the tree is passed to
`modify_ings` with `deleted = True` and dropped from
`ingredient_objects`; objects whose rows are still present are not in
that deletion call and remain tracked. -/
theorem C4_commit_deletion_tracking (env : CommitEnv) (conv0 : Conv)
    (objs0 : List IngObject) (f : Forest) (res : CommitResult) (o : IngObject)
    (h : commit_ingredients env conv0 objs0 f = some res)
    (hnd : objs0.Nodup) (hflat : flatOkF f = true)
    (hfresh : ∀ m, env.news m ∉ objs0) (ho : o ∈ objs0) :
    (Value.obj o ∉ valsF f → o ∈ res.deletedPassed ∧ o ∉ res.objs) ∧
    (Value.obj o ∈ valsF f → o ∉ res.deletedPassed ∧ o ∈ res.objs) := by
  rw [commit_ingredients] at h
  rcases hc : commitF env .none ⟨0, 0, conv0, objs0, objs0, [], [], []⟩ f with _ | p
  · rw [hc] at h
    simp at h
  · rw [hc] at h
    obtain ⟨f', s⟩ := p
    simp only [Option.some.injEq] at h
    have hdel := commitF_deleted env .none _ f f' s hc
    obtain ⟨added, haddeq, haddn⟩ := commitF_objs env .none _ f f' s hc
    simp only at hdel haddeq
    have hco : objs0.count o = 1 := List.count_eq_one_of_mem hnd ho
    have hcadd : added.count o = 0 := by
      rw [List.count_eq_zero]
      intro hin
      obtain ⟨m, hm⟩ := haddn o hin
      exact hfresh m (hm ▸ ho)
    have hdelcount : s.deletedList.count o =
        1 - min ((objRowsF f).count o) 1 := by
      rw [hdel, count_foldl_erase, hco]
    have hobjseq : res.objs = s.deletedList.foldl List.erase s.objs := by
      rw [← h]
    have hdeleq : res.deletedPassed = s.deletedList := by
      rw [← h]
    constructor
    · intro habs
      have hnotvis : o ∉ objRowsF f := fun hv =>
        habs ((mem_objRowsF_iff o f hflat).mp hv)
      have hcvis : (objRowsF f).count o = 0 := List.count_eq_zero.mpr hnotvis
      have hdc : s.deletedList.count o = 1 := by
        rw [hdelcount, hcvis]
        omega
      constructor
      · rw [hdeleq]
        exact List.count_pos_iff_mem.mp (by omega)
      · rw [hobjseq]
        have : (s.deletedList.foldl List.erase s.objs).count o =
            s.objs.count o - min (s.deletedList.count o) (s.objs.count o) :=
          count_foldl_erase o _ _
        have hsoc : s.objs.count o = 1 := by
          rw [haddeq, List.count_append, hco, hcadd]
        intro hmem
        have := List.count_pos_iff_mem.mpr hmem
        omega
    · intro hpres
      have hvis : o ∈ objRowsF f := (mem_objRowsF_iff o f hflat).mpr hpres
      have hcvis : 1 ≤ (objRowsF f).count o := List.one_le_count_iff.mpr hvis
      have hdc : s.deletedList.count o = 0 := by
        rw [hdelcount]
        omega
      constructor
      · rw [hdeleq]
        intro hmem
        have := List.count_pos_iff_mem.mpr hmem
        omega
      · rw [hobjseq]
        have hfe : (s.deletedList.foldl List.erase s.objs).count o =
            s.objs.count o - min (s.deletedList.count o) (s.objs.count o) :=
          count_foldl_erase o _ _
        have hsoc : s.objs.count o = 1 := by
          rw [haddeq, List.count_append, hco, hcadd]
        apply List.count_pos_iff_mem.mp
        omega

/-- Concrete instantiation of `C4_commit_deletion_tracking`: `c1obj`'s
row is present in `c1forest`, so it stays tracked and is not deleted. -/
theorem C4_witness :
    ∃ res, commit_ingredients c1env [] [c1obj] c1forest = some res ∧
      (c1obj ∉ res.deletedPassed ∧ c1obj ∈ res.objs) := by
  rcases hres : commit_ingredients c1env [] [c1obj] c1forest with _ | res
  · exact absurd hres (by decide)
  · refine ⟨res, rfl, ?_⟩
    exact (C4_commit_deletion_tracking c1env [] [c1obj] c1forest res c1obj hres
      (by decide) (by decide) (fun m => by simp [c1env, c1obj]) (by decide)).2
      (by decide)

/-! ## Groups are created at the top level (C8) -/

mutual
/-- Soundness of the reference search: a found path designates a row
whose value matches the reference. -/
theorem findF_sound (ref : Value) : ∀ (f : List Node) (p : List Nat),
    findF ref f = some p → ∃ m, getAt f p = some m ∧ matchesRef m.row.v ref = true
  | [], p, h => by simp [findF] at h
  | hd :: tl, p, h => by
    rw [findF] at h
    rcases hn : findN ref hd with _ | q
    · rw [hn] at h
      rcases hf : findF ref tl with _ | q2
      · rw [hf] at h
        simp at h
      · rw [hf] at h
        cases q2 with
        | nil =>
          exfalso
          obtain ⟨m, hm, _⟩ := findF_sound ref tl [] hf
          simp [getAt] at hm
        | cons i rest =>
          simp only [Option.some.injEq] at h
          obtain ⟨m, hm, hmm⟩ := findF_sound ref tl (i :: rest) hf
          refine ⟨m, ?_, hmm⟩
          rw [← h, getAt_cons_succ]
          exact hm
    · rw [hn] at h
      simp only [Option.some.injEq] at h
      obtain ⟨m, hm, hmm⟩ := findN_sound ref hd q hn
      refine ⟨m, ?_, hmm⟩
      rw [← h]
      cases q with
      | nil =>
        rcases hm with ⟨_, hmhd⟩ | ⟨hne, _⟩
        · rw [getAt_cons_zero, hmhd]
        · exact absurd rfl hne
      | cons j js =>
        rcases hm with ⟨habs, _⟩ | ⟨_, hget⟩
        · exact absurd habs (by simp)
        · rw [getAt_cons_zero_cons]
          exact hget

/-- Node-level soundness: an empty suffix means the node itself, a
nonempty one points into its children. -/
theorem findN_sound (ref : Value) : ∀ (n : Node) (p : List Nat),
    findN ref n = some p →
      ∃ m, (p = [] ∧ m = n ∨ p ≠ [] ∧ getAt n.children p = some m) ∧
        matchesRef m.row.v ref = true
  | .mk r e cs, p, h => by
    rw [findN] at h
    by_cases hm : matchesRef r.v ref = true
    · rw [if_pos hm] at h
      simp only [Option.some.injEq] at h
      exact ⟨.mk r e cs, Or.inl ⟨h.symm, rfl⟩, by
        simp only [Node.row]
        exact hm⟩
    · rw [if_neg hm] at h
      obtain ⟨m, hget, hmm⟩ := findF_sound ref cs p h
      refine ⟨m, Or.inr ⟨?_, by simpa [Node.children] using hget⟩, hmm⟩
      intro hput
      subst hput
      simp [getAt] at hget
end

/-- `getAt` after a node-level soundness split: paths returned by the
forest search are nonempty and designate actual rows. -/
theorem findF_sound_at (ref : Value) (f : List Node) (p : List Nat)
    (h : findF ref f = some p) :
    ∃ m, getAt f p = some m ∧ matchesRef m.row.v ref = true :=
  findF_sound ref f p h

theorem getAt_insertAfter_top (nw : Node) (f : List Node) (i : Nat)
    (hi : i < f.length) :
    getAt (insertAfterAt nw f [i]) [i + 1] = some nw := by
  show (f.take (i + 1) ++ [nw] ++ f.drop (i + 1))[i + 1]? = some nw
  have hlen : (f.take (i + 1)).length = i + 1 := by
    rw [List.length_take]
    omega
  rw [List.append_assoc, List.getElem?_append_right (by omega)]
  rw [hlen]
  simp

theorem getAt_set_top_ne (f : List Node) (j t : Nat) (x : Node) (h : j ≠ t) :
    getAt (f.set j x) [t] = getAt f [t] := by
  show (f.set j x)[t]? = f[t]?
  exact List.getElem?_set_ne h

theorem getAt_set_top_self (f : List Node) (t : Nat) (x : Node)
    (h : t < f.length) :
    getAt (f.set t x) [t] = some x := by
  show (f.set t x)[t]? = some x
  exact List.getElem?_set_self h

theorem lt_length_of_getAt_top {f : List Node} {t : Nat} {n : Node}
    (h : getAt f [t] = some n) : t < f.length := by
  have hf : f[t]? = some n := h
  rcases List.getElem?_eq_some.mp hf with ⟨hlt, _⟩
  exact hlt

theorem getAt_modify_top_self (g : Node → Node) (f : List Node) (t : Nat) (n : Node)
    (h : getAt f [t] = some n) :
    getAt (modifyAt g f [t]) [t] = some (g n) := by
  have hf : f[t]? = some n := h
  rw [modifyAt, hf]
  exact getAt_set_top_self f t (g n) (lt_length_of_getAt_top h)

/-- Moving the selected rows into the group keeps the group's row at
its (tracked) top-level position. -/
theorem moveChildrenIn_keeps_group (gr : Row) (e : Bool) :
    ∀ (cs : List Value) (f : Forest) (t : Nat) (gcs : List Node),
      getAt f [t] = some (.mk gr e gcs) →
      (∀ c ∈ cs, matchesRef gr.v c = false) →
      ∃ gcs', getAt (moveChildrenIn f t cs).1 [(moveChildrenIn f t cs).2] =
        some (.mk gr e gcs')
  | [], f, t, gcs, hg, _ => by
    rw [moveChildrenIn]
    exact ⟨gcs, hg⟩
  | c :: cs, f, t, gcs, hg, hnm => by
    rw [moveChildrenIn]
    rcases hfind : findF c f with _ | cp
    · simp only [hfind]
      exact moveChildrenIn_keeps_group gr e cs f t gcs hg
        (fun c' hc' => hnm c' (List.mem_cons_of_mem _ hc'))
    · simp only [hfind]
      rcases hcn : getAt f cp with _ | cn
      · simp only [hcn]
        exact moveChildrenIn_keeps_group gr e cs f t gcs hg
          (fun c' hc' => hnm c' (List.mem_cons_of_mem _ hc'))
      · simp only [hcn]
        obtain ⟨m, hm, hmm⟩ := findF_sound c f cp hfind
        rw [hcn] at hm
        cases hm
        have hcpne : cp ≠ [t] := by
          intro hcp
          subst hcp
          rw [hg] at hcn
          cases hcn
          simp only [Node.row] at hmm
          rw [hnm c (List.mem_cons_self _ _)] at hmm
          cases hmm
        have hstep : ∃ gcs1, getAt (removeAt f cp)
            [if cp.length == 1 && decide (cp.headD 0 < t) then t - 1 else t] =
            some (.mk gr e gcs1) := by
          rcases cp with _ | ⟨j, rest⟩
          · exact ⟨gcs, by simpa [removeAt] using hg⟩
          · rcases rest with _ | ⟨k, rest2⟩
            · have hjt : j ≠ t := fun hj => hcpne (by rw [hj])
              by_cases hlt : j < t
              · refine ⟨gcs, ?_⟩
                simp only [List.length_cons, List.length_nil, List.headD_cons]
                rw [if_pos (by simp [hlt])]
                show (f.eraseIdx j)[t - 1]? = _
                rw [List.getElem?_eraseIdx_of_ge _ _ _ (by omega)]
                have h1 : t - 1 + 1 = t := by omega
                rw [h1]
                exact hg
              · refine ⟨gcs, ?_⟩
                simp only [List.length_cons, List.length_nil, List.headD_cons]
                rw [if_neg (by simp [hlt])]
                show (f.eraseIdx j)[t]? = _
                rw [List.getElem?_eraseIdx_of_lt _ _ _ (by omega)]
                exact hg
            · have hcond : ((j :: k :: rest2).length == 1 &&
                  decide ((j :: k :: rest2).headD 0 < t)) = false := by
                rw [Bool.and_eq_false_iff]
                left
                rw [beq_eq_false_iff_ne]
                simp
              rw [hcond]
              simp only [Bool.false_eq_true, if_false]
              rw [show removeAt f (j :: k :: rest2) =
                  (match f[j]? with
                   | some n => f.set j (.mk n.row n.expanded
                       (removeAt n.children (k :: rest2)))
                   | none => f) from rfl]
              rcases hfj : f[j]? with _ | nj
              · simp only [hfj]
                exact ⟨gcs, hg⟩
              · simp only [hfj]
                by_cases hjt : j = t
                · subst hjt
                  have hnj : nj = .mk gr e gcs := by
                    have h2 : f[j]? = some (Node.mk gr e gcs) := hg
                    rw [hfj] at h2
                    cases h2
                    rfl
                  subst hnj
                  exact ⟨removeAt gcs (k :: rest2),
                    getAt_set_top_self f j _ (lt_length_of_getAt_top hg)⟩
                · exact ⟨gcs, by rw [getAt_set_top_ne f j t _ hjt]; exact hg⟩
        obtain ⟨gcs1, hgcs1⟩ := hstep
        have hb := getAt_modify_top_self
          (fun n => .mk n.row n.expanded (cn :: n.children)) (removeAt f cp)
          (if cp.length == 1 && decide (cp.headD 0 < t) then t - 1 else t)
          (.mk gr e gcs1) hgcs1
        exact moveChildrenIn_keeps_group gr e cs _ _ _ hb
          (fun c' hc' => hnm c' (List.mem_cons_of_mem _ hc'))

/-- **C8**: `add_group` always inserts the new group row at the top
level of the tree: with a previous iterator inside a group it first
climbs to the top-level ancestor, and moving the selected rows inside
does not re-parent the group, so the returned iterator is a top-level
path holding the `"GROUP <name>"` row. -/
theorem C8_addGroup_top_level (f : Forest) (name : String) (prev : Option Path)
    (children : List Value) (fb : Bool)
    (hprev : ∀ p, prev = some p → p.headD 0 < f.length)
    (hch : Value.strv ("GROUP " ++ name) ∉ children) :
    ∃ t gcs, (addGroup f name prev children fb).2 = [t] ∧
      getAt (addGroup f name prev children fb).1 [t] =
        some (.mk { v := .strv ("GROUP " ++ name), amt := some name,
                    unit := none, item := none, opt := false } false gcs) := by
  rw [addGroup.eq_def]
  set gr : Row := { v := .strv ("GROUP " ++ name), amt := some name,
                    unit := none, item := none, opt := false } with hgr
  have hnomatch : ∀ c ∈ children.reverse, matchesRef gr.v c = false := by
    intro c hc
    rw [List.mem_reverse] at hc
    have hne : c ≠ Value.strv ("GROUP " ++ name) := fun h => hch (h ▸ hc)
    rw [hgr]
    simp only [matchesRef, row_equal, Bool.or_false]
    rw [beq_eq_false_iff_ne]
    exact fun h => hne h.symm
  have hblank : ∀ (f1 : Forest) (t : Nat), getAt f1 [t] = some (.mk blankRow false []) →
      ∃ gcs, getAt ((moveChildrenIn (setRowAt f1 [t]
          (fun r => { r with v := .strv ("GROUP " ++ name), amt := some name }))
          t children.reverse).1)
        [(moveChildrenIn (setRowAt f1 [t]
          (fun r => { r with v := .strv ("GROUP " ++ name), amt := some name }))
          t children.reverse).2] = some (.mk gr false gcs) := by
    intro f1 t h1
    have h2 : getAt (setRowAt f1 [t]
        (fun r => { r with v := .strv ("GROUP " ++ name), amt := some name }))
        [t] = some (.mk gr false []) := by
      have := getAt_modify_top_self
        (fun n => .mk ({ n.row with v := .strv ("GROUP " ++ name), amt := some name })
          n.expanded n.children) f1 t _ h1
      simpa [setRowAt, blankRow, hgr] using this
    exact moveChildrenIn_keeps_group gr false children.reverse _ t [] h2 hnomatch
  rcases prev with _ | p
  · dsimp only
    by_cases hf : fb
    · rw [if_pos hf]
      dsimp only
      obtain ⟨gcs, hgcs⟩ := hblank (f ++ [.mk blankRow false []]) f.length
        (by show (f ++ [_])[f.length]? = _; rw [List.getElem?_concat_length])
      exact ⟨_, gcs, rfl, hgcs⟩
    · rw [if_neg hf]
      dsimp only
      obtain ⟨gcs, hgcs⟩ := hblank (.mk blankRow false [] :: f) 0
        (by rw [getAt_cons_zero])
      exact ⟨_, gcs, rfl, hgcs⟩
  · dsimp only
    have hlt := hprev p rfl
    obtain ⟨gcs, hgcs⟩ := hblank (insertAfterAt (.mk blankRow false []) f [p.headD 0])
      (p.headD 0 + 1) (getAt_insertAfter_top _ f _ hlt)
    exact ⟨_, gcs, rfl, hgcs⟩

/-- A forest with a top-level group holding two children, for
instantiating `C8_addGroup_top_level`. -/
def c8forest : Forest :=
  [c5node,
   .mk { v := .strv "GROUP g", amt := some "g", unit := none, item := none,
         opt := false } false
     [.mk { v := .intv 0, amt := none, unit := none, item := some "x",
            opt := false } false [],
      .mk { v := .intv 1, amt := none, unit := none, item := some "y",
            opt := false } false []]]

/-- Concrete instantiation of `C8_addGroup_top_level`: a previous
iterator nested inside an existing group still yields a top-level
group row. -/
theorem C8_witness :
    ∃ t gcs, (addGroup c8forest "new" (some [1, 1]) [Value.obj c5obj] true).2 = [t] ∧
      getAt (addGroup c8forest "new" (some [1, 1]) [Value.obj c5obj] true).1 [t] =
        some (.mk { v := .strv ("GROUP new"), amt := some "new",
                    unit := none, item := none, opt := false } false gcs) :=
  C8_addGroup_top_level c8forest "new" (some [1, 1]) [Value.obj c5obj] true
    (by intro p hp; cases hp; simp [c8forest]) (by decide)

/-! ## New rows during commit (C6) -/

/-- A column-0 reference `commit_iter` treats as a new item: an
integer placeholder or a `RecRef` (`isinstance(ing, (int, RecRef))`). -/
def Value.isNewRef : Value → Bool
  | .intv _ => true
  | .rref _ => true
  | _ => false

theorem find?_map_set_self {κ α : Type} [DecidableEq κ] (k : κ) (v : α) :
    ∀ (l : List (κ × α)), (List.find? (fun p => p.1 == k) l).isSome →
      List.find? (fun p => p.1 == k)
        (List.map (fun p => if p.1 == k then (k, v) else p) l) = some (k, v)
  | [], h => by simp at h
  | p :: l, h => by
    rw [List.map_cons]
    by_cases hp : p.1 = k
    · have hpb : (p.1 == k) = true := beq_iff_eq.mpr hp
      rw [if_pos hpb]
      simp [List.find?_cons]
    · have hpb : (p.1 == k) = false := beq_eq_false_iff_ne.mpr hp
      rw [if_neg (by simp [hpb])]
      rw [List.find?_cons_of_neg _ (by simp [hpb])]
      apply find?_map_set_self k v l
      rw [List.find?_cons_of_neg _ (by simp [hpb])] at h
      exact h

theorem find?_map_set_ne {κ α : Type} [DecidableEq κ] (k k' : κ) (v : α)
    (hne : k' ≠ k) :
    ∀ (l : List (κ × α)),
      List.find? (fun p => p.1 == k')
        (List.map (fun p => if p.1 == k then (k, v) else p) l) =
      List.find? (fun p => p.1 == k') l
  | [] => by simp
  | p :: l => by
    rw [List.map_cons]
    by_cases hp : p.1 = k
    · have hpb : (p.1 == k) = true := beq_iff_eq.mpr hp
      rw [if_pos hpb]
      have h1 : (k == k') = false := beq_eq_false_iff_ne.mpr (fun h => hne h.symm)
      have h2 : (p.1 == k') = false := by
        rw [beq_eq_false_iff_ne]
        intro hk
        exact hne (by rw [← hk, hp])
      rw [List.find?_cons_of_neg _ (by simp [h1]),
        List.find?_cons_of_neg _ (by simp [h2])]
      exact find?_map_set_ne k k' v hne l
    · have hpb : (p.1 == k) = false := beq_eq_false_iff_ne.mpr hp
      rw [if_neg (by simp [hpb])]
      by_cases hp' : p.1 = k'
      · have hpb' : (p.1 == k') = true := beq_iff_eq.mpr hp'
        rw [List.find?_cons_of_pos _ (by simp [hpb']),
          List.find?_cons_of_pos _ (by simp [hpb'])]
      · have hpb' : (p.1 == k') = false := beq_eq_false_iff_ne.mpr hp'
        rw [List.find?_cons_of_neg _ (by simp [hpb']),
          List.find?_cons_of_neg _ (by simp [hpb'])]
        exact find?_map_set_ne k k' v hne l

theorem rdGet_rdSet_self (d : RowDict) (k : String) (v : PyVal) :
    rdGet (rdSet d k v) k = some v := by
  rw [rdSet]
  by_cases hf : (List.find? (fun p => p.1 == k) d).isSome
  · rw [if_pos hf, rdGet, find?_map_set_self k v d hf]
    rfl
  · rw [if_neg hf, rdGet, List.concat_eq_append, List.find?_append]
    rw [Option.not_isSome_iff_eq_none] at hf
    rw [hf]
    simp [List.find?]

theorem rdGet_rdSet_ne (d : RowDict) (k k' : String) (v : PyVal) (h : k' ≠ k) :
    rdGet (rdSet d k v) k' = rdGet d k' := by
  rw [rdSet]
  by_cases hf : (List.find? (fun p => p.1 == k) d).isSome
  · rw [if_pos hf, rdGet, find?_map_set_ne k k' v h d, rdGet]
  · rw [if_neg hf, rdGet, List.concat_eq_append, List.find?_append, rdGet]
    rcases hfd : List.find? (fun p => p.1 == k') d with _ | q
    · have hkk : (k == k') = false := beq_eq_false_iff_ne.mpr (fun hk => h hk.symm)
      simp [List.find?, hkk]
    · rw [hfd]
      simp

theorem convGet_convSet_self (c : Conv) (k v : Value) :
    convGet (convSet c k v) k = v := by
  rw [convSet]
  by_cases hf : (List.find? (fun p => p.1 == k) c).isSome
  · rw [if_pos hf, convGet, find?_map_set_self k v c hf]
  · rw [if_neg hf, convGet, List.concat_eq_append, List.find?_append]
    rw [Option.not_isSome_iff_eq_none] at hf
    rw [hf]
    simp [List.find?]

theorem convGet_convSet_ne (c : Conv) (k v w : Value) (h : w ≠ k) :
    convGet (convSet c k v) w = convGet c w := by
  rw [convSet]
  by_cases hf : (List.find? (fun p => p.1 == k) c).isSome
  · rw [if_pos hf, convGet, find?_map_set_ne k w v h c, convGet]
  · rw [if_neg hf, convGet, List.concat_eq_append, List.find?_append, convGet]
    rcases hfd : List.find? (fun p => p.1 == w) c with _ | q
    · have hkk : (k == w) = false := beq_eq_false_iff_ne.mpr (fun hk => h hk.symm)
      simp [List.find?, hkk]
    · rw [hfd]
      simp

/-- What the commit does to the preorder value list (in a model where
only groups have children): each new reference is replaced by the next
fresh database object, everything else is left alone. -/
def commitVals (news : Nat → IngObject) : Nat → List Value → List Value × Nat
  | j, [] => ([], j)
  | j, v :: vs =>
    if v.isNewRef then
      ((.obj (news j)) :: (commitVals news (j + 1) vs).1,
        (commitVals news (j + 1) vs).2)
    else
      (v :: (commitVals news j vs).1, (commitVals news j vs).2)

theorem commitVals_append (news : Nat → IngObject) :
    ∀ (a b : List Value) (j : Nat),
      commitVals news j (a ++ b) =
        ((commitVals news j a).1 ++ (commitVals news (commitVals news j a).2 b).1,
         (commitVals news (commitVals news j a).2 b).2)
  | [], b, j => by simp [commitVals]
  | v :: a, b, j => by
    rw [List.cons_append, commitVals, commitVals]
    by_cases hv : v.isNewRef
    · rw [if_pos hv, if_pos hv]
      rw [commitVals_append news a b (j + 1)]
      simp
    · rw [if_neg hv, if_neg hv]
      rw [commitVals_append news a b j]
      simp

theorem commitVals_mono (news : Nat → IngObject) :
    ∀ (vs : List Value) (j : Nat), j ≤ (commitVals news j vs).2
  | [], j => by simp [commitVals]
  | v :: vs, j => by
    rw [commitVals]
    by_cases hv : v.isNewRef
    · rw [if_pos hv]
      have := commitVals_mono news vs (j + 1)
      simp only []
      omega
    · rw [if_neg hv]
      exact commitVals_mono news vs j

mutual
theorem commitN_vals (env : CommitEnv) (g : PyVal) (s : CommitSt) :
    ∀ (n : Node) (n' : Node) (s' : CommitSt), flatOkN n = true →
      commitN env g s n = some (n', s') →
      valsN n' = (commitVals env.news s.addIdx (valsN n)).1 ∧
      s'.addIdx = (commitVals env.news s.addIdx (valsN n)).2
  | .mk r e cs, n', s', hflat, h => by
    rw [flatOkN, Bool.and_eq_true] at hflat
    rcases hr : r.v with _ | o | rr | k | str
    · rw [commitN, hr] at h
      simp at h
    · have hcs : cs = [] := by
        have := hflat.1
        rw [hr] at this
        simp [Value.isStr] at this
        exact this
      subst hcs
      rw [commitN, hr] at h
      simp only [Option.some.injEq, Prod.mk.injEq] at h
      have hu := commitObjSt_untouched o s
        (commitAttrPass o (commitDictBase env g (.mk r e []) s.pos))
      constructor
      · rw [← h.1]
        simp [valsN_mk, hr, valsF, commitVals, Value.isNewRef]
      · rw [← h.2]
        rw [valsN_mk, hr, commitVals]
        simp only [Value.isNewRef, Bool.false_eq_true, if_false, valsF,
          commitVals]
        exact hu.2.2.1
    · have hcs : cs = [] := by
        have := hflat.1
        rw [hr] at this
        simp [Value.isStr] at this
        exact this
      subst hcs
      rw [commitN, hr] at h
      simp only [Option.some.injEq, Prod.mk.injEq] at h
      constructor
      · rw [← h.1]
        simp [valsN_mk, hr, valsF, commitVals, Value.isNewRef]
      · rw [← h.2, valsN_mk, hr]
        simp [commitVals, Value.isNewRef, valsF]
    · have hcs : cs = [] := by
        have := hflat.1
        rw [hr] at this
        simp [Value.isStr] at this
        exact this
      subst hcs
      rw [commitN, hr] at h
      simp only [Option.some.injEq, Prod.mk.injEq] at h
      constructor
      · rw [← h.1]
        simp [valsN_mk, hr, valsF, commitVals, Value.isNewRef]
      · rw [← h.2, valsN_mk, hr]
        simp [commitVals, Value.isNewRef, valsF]
    · rw [commitN, hr] at h
      dsimp only at h
      rcases hc : commitF env (optStrPV r.amt) s cs with _ | p
      · rw [hc] at h
        simp at h
      · rw [hc] at h
        obtain ⟨cs', s2⟩ := p
        simp only [Option.some.injEq, Prod.mk.injEq] at h
        obtain ⟨ih1, ih2⟩ := commitF_vals env (optStrPV r.amt) s cs cs' s2
          hflat.2 hc
        constructor
        · rw [← h.1, valsN_mk, hr, valsN_mk, hr]
          rw [commitVals]
          simp only [Value.isNewRef, Bool.false_eq_true, if_false]
          rw [ih1]
        · rw [← h.2, valsN_mk, hr, commitVals]
          simp only [Value.isNewRef, Bool.false_eq_true, if_false]
          exact ih2

theorem commitF_vals (env : CommitEnv) (g : PyVal) (s : CommitSt) :
    ∀ (ns : List Node) (ns' : List Node) (s' : CommitSt), flatOkF ns = true →
      commitF env g s ns = some (ns', s') →
      valsF ns' = (commitVals env.news s.addIdx (valsF ns)).1 ∧
      s'.addIdx = (commitVals env.news s.addIdx (valsF ns)).2
  | [], ns', s', _, h => by
    rw [commitF] at h
    simp only [Option.some.injEq, Prod.mk.injEq] at h
    constructor
    · rw [← h.1]
      simp [valsF, commitVals]
    · rw [← h.2]
      simp [valsF, commitVals]
  | n :: ns, ns', s', hflat, h => by
    rw [flatOkF, Bool.and_eq_true] at hflat
    rw [commitF] at h
    rcases hn : commitN env g s n with _ | p1
    · rw [hn] at h
      simp at h
    · rw [hn] at h
      obtain ⟨n1, s1⟩ := p1
      dsimp only at h
      rcases hf : commitF env g s1 ns with _ | p2
      · rw [hf] at h
        simp at h
      · rw [hf] at h
        obtain ⟨ns2, s2⟩ := p2
        simp only [Option.some.injEq, Prod.mk.injEq] at h
        obtain ⟨ih1a, ih1b⟩ := commitN_vals env g s n n1 s1 hflat.1 hn
        obtain ⟨ih2a, ih2b⟩ := commitF_vals env g s1 ns ns2 s2 hflat.2 hf
        rw [valsF_cons, commitVals_append]
        constructor
        · rw [← h.1, valsF_cons, ih1a, ih2a, ih1b]
        · rw [← h.2, ih2b, ih1b]
end

mutual
theorem commitN_conv (env : CommitEnv) (g : PyVal) (s : CommitSt) :
    ∀ (n : Node) (n' : Node) (s' : CommitSt), commitN env g s n = some (n', s') →
      ∀ w, w ∉ valsN n → convGet s'.conv w = convGet s.conv w
  | .mk r e cs, n', s', h, w, hw => by
    rcases hr : r.v with _ | o | rr | k | str
    · rw [commitN, hr] at h
      simp at h
    · rw [commitN, hr] at h
      simp only [Option.some.injEq, Prod.mk.injEq] at h
      rw [← h.2]
      have hu := commitObjSt_untouched o s
        (commitAttrPass o (commitDictBase env g (.mk r e cs) s.pos))
      show convGet (commitObjSt o s _).conv w = convGet s.conv w
      rw [hu.2.2.2.2.1]
    · rw [commitN, hr] at h
      simp only [Option.some.injEq, Prod.mk.injEq] at h
      rw [← h.2]
      have hwne : w ≠ r.v := by
        intro heq
        apply hw
        rw [valsN_mk, heq]
        exact List.mem_cons_self _ _
      rw [hr] at hwne
      exact convGet_convSet_ne s.conv _ _ w hwne
    · rw [commitN, hr] at h
      simp only [Option.some.injEq, Prod.mk.injEq] at h
      rw [← h.2]
      have hwne : w ≠ r.v := by
        intro heq
        apply hw
        rw [valsN_mk, heq]
        exact List.mem_cons_self _ _
      rw [hr] at hwne
      exact convGet_convSet_ne s.conv _ _ w hwne
    · rw [commitN, hr] at h
      dsimp only at h
      rcases hc : commitF env (optStrPV r.amt) s cs with _ | p
      · rw [hc] at h
        simp at h
      · rw [hc] at h
        obtain ⟨cs', s2⟩ := p
        simp only [Option.some.injEq, Prod.mk.injEq] at h
        rw [← h.2]
        apply commitF_conv env (optStrPV r.amt) s cs cs' s2 hc
        intro hmem
        apply hw
        rw [valsN_mk]
        exact List.mem_cons_of_mem _ hmem

theorem commitF_conv (env : CommitEnv) (g : PyVal) (s : CommitSt) :
    ∀ (ns : List Node) (ns' : List Node) (s' : CommitSt),
      commitF env g s ns = some (ns', s') →
      ∀ w, w ∉ valsF ns → convGet s'.conv w = convGet s.conv w
  | [], ns', s', h, w, _ => by
    rw [commitF] at h
    simp only [Option.some.injEq, Prod.mk.injEq] at h
    rw [← h.2]
  | n :: ns, ns', s', h, w, hw => by
    rw [commitF] at h
    rcases hn : commitN env g s n with _ | p1
    · rw [hn] at h
      simp at h
    · rw [hn] at h
      obtain ⟨n1, s1⟩ := p1
      dsimp only at h
      rcases hf : commitF env g s1 ns with _ | p2
      · rw [hf] at h
        simp at h
      · rw [hf] at h
        obtain ⟨ns2, s2⟩ := p2
        simp only [Option.some.injEq, Prod.mk.injEq] at h
        rw [← h.2]
        rw [commitF_conv env g s1 ns ns2 s2 hf w
          (fun hm => hw (by rw [valsF_cons]; exact List.mem_append_right _ hm))]
        exact commitN_conv env g s n n1 s1 hn w
          (fun hm => hw (by rw [valsF_cons]; exact List.mem_append_left _ hm))
end

mutual
theorem commitN_addCalls (env : CommitEnv) (g : PyVal) (s : CommitSt) :
    ∀ (n : Node) (n' : Node) (s' : CommitSt), commitN env g s n = some (n', s') →
      ∃ tail, s'.addCalls = s.addCalls ++ tail
  | .mk r e cs, n', s', h => by
    rcases hr : r.v with _ | o | rr | k | str
    · rw [commitN, hr] at h
      simp at h
    · rw [commitN, hr] at h
      simp only [Option.some.injEq, Prod.mk.injEq] at h
      rw [← h.2]
      have hu := commitObjSt_untouched o s
        (commitAttrPass o (commitDictBase env g (.mk r e cs) s.pos))
      exact ⟨[], by
        show (commitObjSt o s _).addCalls = s.addCalls ++ []
        rw [hu.2.2.2.2.2, List.append_nil]⟩
    · rw [commitN, hr] at h
      simp only [Option.some.injEq, Prod.mk.injEq] at h
      rw [← h.2]
      exact ⟨_, rfl⟩
    · rw [commitN, hr] at h
      simp only [Option.some.injEq, Prod.mk.injEq] at h
      rw [← h.2]
      exact ⟨_, rfl⟩
    · rw [commitN, hr] at h
      dsimp only at h
      rcases hc : commitF env (optStrPV r.amt) s cs with _ | p
      · rw [hc] at h
        simp at h
      · rw [hc] at h
        obtain ⟨cs', s2⟩ := p
        simp only [Option.some.injEq, Prod.mk.injEq] at h
        rw [← h.2]
        exact commitF_addCalls env (optStrPV r.amt) s cs cs' s2 hc

theorem commitF_addCalls (env : CommitEnv) (g : PyVal) (s : CommitSt) :
    ∀ (ns : List Node) (ns' : List Node) (s' : CommitSt),
      commitF env g s ns = some (ns', s') →
      ∃ tail, s'.addCalls = s.addCalls ++ tail
  | [], ns', s', h => by
    rw [commitF] at h
    simp only [Option.some.injEq, Prod.mk.injEq] at h
    rw [← h.2]
    exact ⟨[], by simp⟩
  | n :: ns, ns', s', h => by
    rw [commitF] at h
    rcases hn : commitN env g s n with _ | p1
    · rw [hn] at h
      simp at h
    · rw [hn] at h
      obtain ⟨n1, s1⟩ := p1
      dsimp only at h
      rcases hf : commitF env g s1 ns with _ | p2
      · rw [hf] at h
        simp at h
      · rw [hf] at h
        obtain ⟨ns2, s2⟩ := p2
        simp only [Option.some.injEq, Prod.mk.injEq] at h
        rw [← h.2]
        obtain ⟨t1, ht1⟩ := commitN_addCalls env g s n n1 s1 hn
        obtain ⟨t2, ht2⟩ := commitF_addCalls env g s1 ns ns2 s2 hf
        exact ⟨t1 ++ t2, by rw [ht2, ht1, List.append_assoc]⟩
end

/-- Fetch within one subtree: the empty path suffix is the node
itself, a nonempty suffix descends into the children (the convention
of the search loop). -/
def getAtN (n : Node) : List Nat → Option Node
  | [] => some n
  | i :: is => getAt n.children (i :: is)

theorem getAt_zero_getAtN (hd : Node) (tl : List Node) (p : List Nat) :
    getAt (hd :: tl) (0 :: p) = getAtN hd p := by
  cases p with
  | nil => rw [getAt_cons_zero, getAtN]
  | cons j js => rw [getAt_cons_zero_cons, getAtN]

theorem mem_valsN_of_getAtN : ∀ (n : Node) (p : List Nat) (m : Node),
    getAtN n p = some m → m.row.v ∈ valsN n
  | .mk r e cs, [], m, h => by
    simp only [getAtN, Option.some.injEq] at h
    rw [← h, valsN_mk]
    exact List.mem_cons_self _ _
  | .mk r e cs, i :: is, m, h => by
    simp only [getAtN, Node.children] at h
    rw [valsN_mk]
    exact List.mem_cons_of_mem _ (mem_valsF_of_getAt cs (i :: is) m h)

mutual
/-- Where `commit_iter` meets a new-reference row inside one subtree
(sub-path semantics): a fresh database object replaces the reference
in column 0, the converter gains the mapping, `ingredient_objects`
gains the object, and the `add_ing_and_update_keydic` call built from
the row's dictionary (with `recipe_id`, and `refid` inside
`commitDictBase` for a `RecRef`) is issued. -/
theorem commitN_at (env : CommitEnv) (g : PyVal) (s : CommitSt) :
    ∀ (n : Node) (n' : Node) (s' : CommitSt), commitN env g s n = some (n', s') →
      flatOkN n = true →
      ∀ (p : List Nat) (r : Row) (e : Bool) (cs : List Node),
        getAtN n p = some (.mk r e cs) → r.v.isNewRef = true →
        (valsN n).count r.v ≤ 1 →
        ∃ j, s.addIdx ≤ j ∧ j < s'.addIdx ∧
          getAtN n' p = some (.mk { r with v := .obj (env.news j) } e cs) ∧
          convGet s'.conv r.v = .obj (env.news j) ∧
          env.news j ∈ s'.objs ∧
          ∃ gg pp, rdSet (commitDictBase env gg (.mk r e cs) pp) "recipe_id"
            (.int env.recId) ∈ s'.addCalls
  | .mk r0 e0 cs0, n', s', h, hflat, p, r, e, cs, hget, hnew, hcount => by
    rw [flatOkN, Bool.and_eq_true] at hflat
    rcases hr : r0.v with _ | o | rr | k | str
    · rw [commitN, hr] at h
      simp at h
    · have hcs0 : cs0 = [] := by
        have := hflat.1
        rw [hr] at this
        simp [Value.isStr] at this
        exact this
      subst hcs0
      cases p with
      | nil =>
        simp only [getAtN, Option.some.injEq, Node.mk.injEq] at hget
        rw [← hget.1, hr] at hnew
        simp [Value.isNewRef] at hnew
      | cons i is =>
        simp only [getAtN, Node.children] at hget
        cases is <;> simp [getAt] at hget
    · have hcs0 : cs0 = [] := by
        have := hflat.1
        rw [hr] at this
        simp [Value.isStr] at this
        exact this
      subst hcs0
      rw [commitN, hr] at h
      simp only [Option.some.injEq, Prod.mk.injEq] at h
      cases p with
      | nil =>
        simp only [getAtN, Option.some.injEq, Node.mk.injEq] at hget
        obtain ⟨h1, h2, h3⟩ := hget
        subst h1
        subst h2
        subst h3
        refine ⟨s.addIdx, le_refl _, ?_, ?_, ?_, ?_, g, s.pos, ?_⟩
        · rw [← h.2]
          exact Nat.lt_succ_self _
        · rw [← h.1]
          rfl
        · rw [← h.2, hr]
          exact convGet_convSet_self s.conv _ _
        · rw [← h.2]
          exact List.mem_append_right _ (List.mem_cons_self _ _)
        · rw [← h.2]
          exact List.mem_append_right _ (List.mem_cons_self _ _)
      | cons i is =>
        simp only [getAtN, Node.children] at hget
        cases is <;> simp [getAt] at hget
    · have hcs0 : cs0 = [] := by
        have := hflat.1
        rw [hr] at this
        simp [Value.isStr] at this
        exact this
      subst hcs0
      rw [commitN, hr] at h
      simp only [Option.some.injEq, Prod.mk.injEq] at h
      cases p with
      | nil =>
        simp only [getAtN, Option.some.injEq, Node.mk.injEq] at hget
        obtain ⟨h1, h2, h3⟩ := hget
        subst h1
        subst h2
        subst h3
        refine ⟨s.addIdx, le_refl _, ?_, ?_, ?_, ?_, g, s.pos, ?_⟩
        · rw [← h.2]
          exact Nat.lt_succ_self _
        · rw [← h.1]
          rfl
        · rw [← h.2, hr]
          exact convGet_convSet_self s.conv _ _
        · rw [← h.2]
          exact List.mem_append_right _ (List.mem_cons_self _ _)
        · rw [← h.2]
          exact List.mem_append_right _ (List.mem_cons_self _ _)
      | cons i is =>
        simp only [getAtN, Node.children] at hget
        cases is <;> simp [getAt] at hget
    · rw [commitN, hr] at h
      dsimp only at h
      rcases hc : commitF env (optStrPV r0.amt) s cs0 with _ | q
      · rw [hc] at h
        simp at h
      · rw [hc] at h
        obtain ⟨cs1, s2⟩ := q
        simp only [Option.some.injEq, Prod.mk.injEq] at h
        cases p with
        | nil =>
          simp only [getAtN, Option.some.injEq, Node.mk.injEq] at hget
          rw [← hget.1, hr] at hnew
          simp [Value.isNewRef] at hnew
        | cons i is =>
          simp only [getAtN, Node.children] at hget
          have hcnt : (valsF cs0).count r.v ≤ 1 := by
            rw [valsN_mk, List.count_cons] at hcount
            omega
          obtain ⟨j, hj1, hj2, hg2, hcv, hobj, hadd⟩ :=
            commitF_at env (optStrPV r0.amt) s cs0 cs1 s2 hc hflat.2
              (i :: is) r e cs hget hnew hcnt
          refine ⟨j, hj1, ?_, ?_, ?_, ?_, ?_⟩
          · rw [← h.2]
            exact hj2
          · rw [← h.1]
            simp only [getAtN, Node.children]
            exact hg2
          · rw [← h.2]
            exact hcv
          · rw [← h.2]
            exact hobj
          · rw [← h.2]
            exact hadd

theorem commitF_at (env : CommitEnv) (g : PyVal) (s : CommitSt) :
    ∀ (ns : List Node) (ns' : List Node) (s' : CommitSt),
      commitF env g s ns = some (ns', s') → flatOkF ns = true →
      ∀ (p : List Nat) (r : Row) (e : Bool) (cs : List Node),
        getAt ns p = some (.mk r e cs) → r.v.isNewRef = true →
        (valsF ns).count r.v ≤ 1 →
        ∃ j, s.addIdx ≤ j ∧ j < s'.addIdx ∧
          getAt ns' p = some (.mk { r with v := .obj (env.news j) } e cs) ∧
          convGet s'.conv r.v = .obj (env.news j) ∧
          env.news j ∈ s'.objs ∧
          ∃ gg pp, rdSet (commitDictBase env gg (.mk r e cs) pp) "recipe_id"
            (.int env.recId) ∈ s'.addCalls
  | [], ns', s', h, _, p, r, e, cs, hget, hnew, hcount => by
    cases p with
    | nil => simp [getAt] at hget
    | cons i is => cases is <;> simp [getAt] at hget
  | n :: ns, ns', s', h, hflat, p, r, e, cs, hget, hnew, hcount => by
    rw [flatOkF, Bool.and_eq_true] at hflat
    rw [commitF] at h
    rcases hn : commitN env g s n with _ | q1
    · rw [hn] at h
      simp at h
    · rw [hn] at h
      obtain ⟨n1, s1⟩ := q1
      dsimp only at h
      rcases hf : commitF env g s1 ns with _ | q2
      · rw [hf] at h
        simp at h
      · rw [hf] at h
        obtain ⟨ns2, s2⟩ := q2
        simp only [Option.some.injEq, Prod.mk.injEq] at h
        cases p with
        | nil => simp [getAt] at hget
        | cons i is =>
          cases i with
          | zero =>
            rw [getAt_zero_getAtN] at hget
            have hmem : r.v ∈ valsN n := mem_valsN_of_getAtN n is _ hget
            have hcnthd : (valsN n).count r.v ≤ 1 := by
              rw [valsF_cons, List.count_append] at hcount
              omega
            have hnotl : r.v ∉ valsF ns := by
              rw [valsF_cons, List.count_append] at hcount
              have h1 : 1 ≤ (valsN n).count r.v := List.one_le_count_iff.mpr hmem
              intro hmem2
              have h2 : 1 ≤ (valsF ns).count r.v := List.one_le_count_iff.mpr hmem2
              omega
            obtain ⟨j, hj1, hj2, hg2, hcv, hobj, hadd⟩ :=
              commitN_at env g s n n1 s1 hn hflat.1 is r e cs hget hnew hcnthd
            obtain ⟨hv1, hv2⟩ := commitF_vals env g s1 ns ns2 s2 hflat.2 hf
            have hmono : s1.addIdx ≤ s2.addIdx := by
              rw [hv2]
              exact commitVals_mono env.news (valsF ns) s1.addIdx
            obtain ⟨added, haddedEq, _⟩ := commitF_objs env g s1 ns ns2 s2 hf
            obtain ⟨tail, htail⟩ := commitF_addCalls env g s1 ns ns2 s2 hf
            refine ⟨j, hj1, ?_, ?_, ?_, ?_, ?_⟩
            · rw [← h.2]
              omega
            · rw [← h.1, getAt_zero_getAtN]
              exact hg2
            · rw [← h.2]
              rw [commitF_conv env g s1 ns ns2 s2 hf r.v hnotl]
              exact hcv
            · rw [← h.2, haddedEq]
              exact List.mem_append_left _ hobj
            · obtain ⟨gg, pp, hmemadd⟩ := hadd
              refine ⟨gg, pp, ?_⟩
              rw [← h.2, htail]
              exact List.mem_append_left _ hmemadd
          | succ i2 =>
            rw [getAt_cons_succ] at hget
            have hcnttl : (valsF ns).count r.v ≤ 1 := by
              rw [valsF_cons, List.count_append] at hcount
              omega
            obtain ⟨j, hj1, hj2, hg2, hcv, hobj, hadd⟩ :=
              commitF_at env g s1 ns ns2 s2 hf hflat.2 (i2 :: is) r e cs hget
                hnew hcnttl
            obtain ⟨hv1, hv2⟩ := commitN_vals env g s n n1 s1 hflat.1 hn
            have hmono : s.addIdx ≤ s1.addIdx := by
              rw [hv2]
              exact commitVals_mono env.news (valsN n) s.addIdx
            refine ⟨j, by omega, ?_, ?_, ?_, ?_, ?_⟩
            · rw [← h.2]
              exact hj2
            · rw [← h.1, getAt_cons_succ]
              exact hg2
            · rw [← h.2]
              exact hcv
            · rw [← h.2]
              exact hobj
            · rw [← h.2]
              exact hadd
end

theorem getElem?_middle {α : Type} : ∀ (A : List α) (B : List α) (x : α),
    (A ++ x :: B)[A.length]? = some x
  | [], B, x => by simp
  | a :: A, B, x => by
    rw [List.cons_append]
    simp only [List.length_cons, List.getElem?_cons_succ]
    exact getElem?_middle A B x

theorem set_middle {α : Type} : ∀ (A : List α) (B : List α) (x y : α),
    (A ++ x :: B).set A.length y = A ++ y :: B
  | [], B, x, y => rfl
  | a :: A, B, x, y => by
    rw [List.cons_append, List.length_cons, List.set_cons_succ,
      set_middle A B x y, List.cons_append]

theorem getAt_middle (A B : List Node) (x : Node) :
    getAt (A ++ x :: B) [A.length] = some x := by
  rw [getAt]
  exact getElem?_middle A B x

theorem modifyAt_single (A B : List Node) (x : Node) (g : Node → Node) :
    modifyAt g (A ++ x :: B) [A.length] = A ++ g x :: B := by
  rw [modifyAt, getElem?_middle]
  exact set_middle A B x (g x)

theorem modifyAt_mid1 (A B : List Node) (p x : Node) (g : Node → Node) :
    modifyAt g (A ++ p :: x :: B) [A.length + 1] = A ++ p :: g x :: B := by
  have h := modifyAt_single (A ++ [p]) B x g
  rw [List.append_assoc, List.singleton_append, List.length_append,
    List.length_singleton] at h
  rw [h, List.append_assoc, List.singleton_append]

theorem eraseIdx_middle {α : Type} : ∀ (A : List α) (B : List α) (x : α),
    (A ++ x :: B).eraseIdx A.length = A ++ B
  | [], B, x => rfl
  | a :: A, B, x => by
    rw [List.cons_append, List.length_cons, List.eraseIdx_cons_succ,
      eraseIdx_middle A B x, List.cons_append]

theorem insertAfter_middle : ∀ (A : List Node) (B : List Node) (x y : Node),
    insertAfterAt y (A ++ x :: B) [A.length] = A ++ x :: y :: B
  | [], B, x, y => rfl
  | a :: A, B, x, y => by
    show insertAfterAt y (a :: (A ++ x :: B)) [A.length + 1] = a :: (A ++ x :: y :: B)
    rw [insertAfterAt]
    have h := insertAfter_middle A B x y
    rw [insertAfterAt] at h
    simp only [List.take_succ_cons, List.drop_succ_cons]
    rw [List.cons_append, List.cons_append, h]

theorem valsF_append : ∀ (A B : List Node), valsF (A ++ B) = valsF A ++ valsF B
  | [], B => by simp [valsF]
  | n :: A, B => by
    rw [List.cons_append, valsF_cons, valsF_cons, valsF_append A B,
      List.append_assoc]

theorem matchesRef_vnone_of_ne (w : Value) (h : w ≠ .vnone) :
    matchesRef w .vnone = false := by
  rw [matchesRef]
  have h1 : (w == Value.vnone) = false := beq_eq_false_iff_ne.mpr h
  have h2 : row_equal w .vnone = false := by cases w <;> rfl
  rw [h1, h2]
  rfl

theorem convGet_nil (v : Value) : convGet ([] : Conv) v = v := rfl

theorem rdGet_getExtra (v : Value) (d : RowDict) (k : String)
    (hk : k ≠ "ingkey") : rdGet (getExtra v d) k = rdGet d k := by
  have hfb : rdGet
      (if pyTruthy ((rdGet d "item").getD .none) then
        rdSet d "ingkey" (.str (splitSemi (pyStr ((rdGet d "item").getD .none))))
      else d) k = rdGet d k := by
    split
    · exact rdGet_rdSet_ne d "ingkey" k _ hk
    · rfl
  cases v with
  | obj o =>
    simp only [getExtra]
    split
    · exact rdGet_rdSet_ne d "ingkey" k _ hk
    · exact hfb
  | vnone =>
    simp only [getExtra]
    exact hfb
  | rref r =>
    simp only [getExtra]
    exact hfb
  | intv n =>
    simp only [getExtra]
    exact hfb
  | strv s =>
    simp only [getExtra]
    exact hfb

theorem rdGet_rowdict_amount (r : Row) :
    rdGet (getRowdict (.mk r false [])) "amount" = some (optStrPV r.amt) := by
  rw [getRowdict, rdGet_getExtra _ _ _ (by decide)]
  simp [rdGet, List.find?]
  rfl

theorem rdGet_rowdict_unit (r : Row) :
    rdGet (getRowdict (.mk r false [])) "unit" = some (optStrPV r.unit) := by
  rw [getRowdict, rdGet_getExtra _ _ _ (by decide)]
  simp [rdGet, List.find?]
  rfl

theorem rdGet_rowdict_item (r : Row) :
    rdGet (getRowdict (.mk r false [])) "item" = some (optStrPV r.item) := by
  rw [getRowdict, rdGet_getExtra _ _ _ (by decide)]
  simp [rdGet, List.find?]
  rfl

theorem rdGet_rowdict_optional (r : Row) :
    rdGet (getRowdict (.mk r false [])) "optional" = some (.bool r.opt) := by
  rw [getRowdict, rdGet_getExtra _ _ _ (by decide)]
  simp [rdGet, List.find?]
  rfl

theorem rdGet_rowdict_refid (r : Row) :
    rdGet (getRowdict (.mk r false [])) "refid" = none := by
  rw [getRowdict, rdGet_getExtra _ _ _ (by decide)]
  simp [rdGet, List.find?]

theorem group_name_ne_empty (g : String) : ("GROUP " ++ g) ≠ "" := by
  intro h
  have h2 := congrArg String.data h
  rw [String.data_append] at h2
  have h3 := List.append_eq_nil.mp h2
  exact absurd h3.1 (by decide)

/-- Re-filling a freshly added ingredient-object row from the captured
dictionary restores the original columns (given the reachable
consistency of row columns with the backing object). -/
theorem c3RestoreObj (r : Row) (o : IngObject) (a : String)
    (hv : r.v = .obj o) (hamt : r.amt = some a)
    (hu : r.unit = none → o.unit = .none) (hi : r.item = none → o.item = .none) :
    updateIngredientRow (getRowdict (.mk r false []))
      ⟨.obj o, some o.amount_str, pvToOptStr o.unit, pvToOptStr o.item,
        pyTruthy o.optional⟩ = r := by
  have hA := rdGet_rowdict_amount r
  have hU := rdGet_rowdict_unit r
  have hI := rdGet_rowdict_item r
  have hO := rdGet_rowdict_optional r
  obtain ⟨rv, ramt, runit, ritem, ropt⟩ := r
  simp only at hv hamt hu hi hA hU hI hO
  subst hv
  subst hamt
  rw [updateIngredientRow, hA, hU, hI, hO]
  rcases runit with _ | u
  · rcases ritem with _ | it
    · have hu2 := hu rfl
      have hi2 := hi rfl
      simp [optStrPV, pyStr, pyTruthy, hu2, hi2, pvToOptStr]
    · have hu2 := hu rfl
      simp [optStrPV, pyStr, pyTruthy, hu2, pvToOptStr]
  · rcases ritem with _ | it
    · have hi2 := hi rfl
      simp [optStrPV, pyStr, pyTruthy, hi2, pvToOptStr]
    · simp [optStrPV, pyStr, pyTruthy]

/-- Re-filling a freshly added placeholder row from the captured
dictionary restores the original columns. -/
theorem c3RestoreInt (r : Row) (v0 : Value) (hv : r.v = v0) :
    updateIngredientRow (getRowdict (.mk r false []))
      { blankRow with v := v0 } = r := by
  have hA := rdGet_rowdict_amount r
  have hU := rdGet_rowdict_unit r
  have hI := rdGet_rowdict_item r
  have hO := rdGet_rowdict_optional r
  obtain ⟨rv, ramt, runit, ritem, ropt⟩ := r
  simp only at hv hA hU hI hO
  subst hv
  rw [updateIngredientRow, hA, hU, hI, hO]
  rcases ramt with _ | a <;> rcases runit with _ | u <;> rcases ritem with _ | it <;>
    simp [optStrPV, pyStr, pyTruthy, blankRow]

theorem head_mem_valsN (n : Node) : n.row.v ∈ valsN n := by
  cases n with
  | mk r e cs =>
    rw [valsN_mk]
    exact List.mem_cons_self _ _

theorem newIter_none (f' : Forest) :
    newIter f' none none false = ((.mk blankRow false []) :: f', [0]) := rfl

theorem newIter_after (A B : List Node) (x : Node) :
    newIter (A ++ x :: B) none (some [A.length]) false =
      (A ++ x :: (.mk blankRow false []) :: B, [A.length + 1]) := by
  have h := insertAfter_middle A B x (.mk blankRow false [])
  show (insertAfterAt (.mk blankRow false []) (A ++ x :: B) [A.length],
    pathAfter [A.length]) = _
  rw [h]
  rfl

theorem modifyAt_zero (B : List Node) (x : Node) (g : Node → Node) :
    modifyAt g (x :: B) [0] = g x :: B := by
  have h := modifyAt_single [] B x g
  simpa using h

theorem addGroup_none (f' : Forest) (gname : String) :
    addGroup f' gname none [] false =
      ((.mk ⟨.strv ("GROUP " ++ gname), some gname, none, none, false⟩ false [])
        :: f', [0]) := by
  rw [addGroup.eq_def]
  simp only [Bool.false_eq_true, if_false, List.singleton_append, setRowAt]
  rw [modifyAt_zero]
  rw [List.reverse_nil, moveChildrenIn]
  rfl

theorem addGroup_after (A B : List Node) (x : Node) (gname : String) :
    addGroup (A ++ x :: B) gname (some [A.length]) [] false =
      (A ++ x ::
        (.mk ⟨.strv ("GROUP " ++ gname), some gname, none, none, false⟩ false [])
        :: B, [A.length + 1]) := by
  rw [addGroup.eq_def]
  dsimp only
  simp only [List.headD_cons]
  rw [insertAfter_middle]
  simp only [setRowAt]
  rw [modifyAt_mid1]
  rw [List.reverse_nil, moveChildrenIn]
  rfl

/-- `do_undelete_iters` on one childless, unexpanded ingredient-object
row: the row is re-added at the point `_new_iter_` picks and refilled
from the captured dictionary. -/
theorem undeleteOne_obj (cnt : Nat) (objs : List IngObject) (f' : Forest)
    (C D : List Node) (pI : Option Path) (pv : Value) (r : Row) (o : IngObject)
    (a : String)
    (hv : r.v = .obj o) (hamt : r.amt = some a)
    (hu : r.unit = none → o.unit = .none) (hi : r.item = none → o.item = .none)
    (hprev : get_iter_from_persistent_ref [] f' pv = pI)
    (hnew : newIter f' none pI false = (C ++ (.mk blankRow false []) :: D, [C.length])) :
    undeleteOne ⟨f', cnt, [], objs⟩
      ⟨getRowdict (.mk r false []), pv, r.v, [], false⟩ =
      some ⟨C ++ (.mk r false []) :: D, cnt, [], objs⟩ := by
  rw [undeleteOne]
  dsimp only
  rw [hprev, hv]
  dsimp only
  rw [addIngredient]
  dsimp only
  rw [hnew]
  simp only [setRowAt]
  rw [modifyAt_single]
  rw [modifyAt_single]
  simp [Node.row, Node.expanded, Node.children, c3RestoreObj r o a hv hamt hu hi]

/-- `do_undelete_iters` on one childless placeholder row: the row goes
back through `add_ingredient_from_kwargs` with itself as placeholder
and is refilled from the captured dictionary. -/
theorem undeleteOne_intv (cnt : Nat) (objs : List IngObject) (f' : Forest)
    (C D : List Node) (pI : Option Path) (pv : Value) (r : Row) (m : Nat)
    (hv : r.v = .intv m)
    (hprev : get_iter_from_persistent_ref [] f' pv = pI)
    (hnew : newIter f' none pI false = (C ++ (.mk blankRow false []) :: D, [C.length])) :
    undeleteOne ⟨f', cnt, [], objs⟩
      ⟨getRowdict (.mk r false []), pv, r.v, [], false⟩ =
      some ⟨C ++ (.mk r false []) :: D, cnt, [], objs⟩ := by
  rw [undeleteOne]
  dsimp only
  rw [hprev, hv]
  dsimp only
  rw [addIngredientFromKwargs]
  rw [hnew]
  rw [kwargsValue, rdGet_rowdict_refid]
  simp only [Bool.false_eq_true, if_false]
  simp only [setRowAt]
  rw [modifyAt_single]
  simp [Node.row, Node.expanded, Node.children, c3RestoreInt r (.intv m) hv]

/-- `do_undelete_iters` on one childless, unexpanded group row: the
group is re-created by `add_group` under its captured name. -/
theorem undeleteOne_group (cnt : Nat) (objs : List IngObject) (f' : Forest)
    (F2 : Forest) (t : Nat) (pI : Option Path) (pv : Value) (r : Row) (g : String)
    (hv : r.v = .strv ("GROUP " ++ g)) (hamt : r.amt = some g)
    (hprev : get_iter_from_persistent_ref [] f' pv = pI)
    (hgrp : addGroup f' g pI [] false = (F2, [t])) :
    undeleteOne ⟨f', cnt, [], objs⟩
      ⟨getRowdict (.mk r false []), pv, r.v, [], false⟩ =
      some ⟨F2, cnt, [], objs⟩ := by
  rw [undeleteOne]
  dsimp only
  rw [hprev, hv]
  dsimp only
  rw [if_pos (group_name_ne_empty g)]
  rw [rdGet_rowdict_amount, hamt]
  dsimp only [optStrPV, Option.getD, pyStr]
  rw [hgrp]
  simp

theorem doUndeleteTotal_single (st st1 : IngCtl) (it : DeleteUndoItem)
    (h : undeleteOne st it = some st1) :
    doUndeleteItersTotal [it] st = st1 := by
  rw [doUndeleteItersTotal, doUndeleteIters, h]
  dsimp only
  rw [doUndeleteIters]
  rfl

/-- The search resolves a row's own reference back to its path when
references are unambiguous. -/
theorem c3find_self (A B : List Node) (n : Node)
    (hpw : refsUnique (A ++ n :: B)) :
    get_iter_from_persistent_ref [] (A ++ n :: B) n.row.v = some [A.length] := by
  rw [get_iter_from_persistent_ref, convGet_nil]
  have hmem : n.row.v ∈ valsF (A ++ n :: B) := by
    rw [valsF_append, valsF_cons]
    exact List.mem_append_right _ (List.mem_append_left _ (head_mem_valsN n))
  have hps := pairwise_match_spec _ n.row.v hpw hmem
  exact findF_rt (A ++ n :: B) [A.length] n n.row.v (getAt_middle A B n)
    (matchesRef_self _) hps.1 hps.2

/-- After the deletion, the recorded previous sibling still resolves
to its own (unchanged) path. -/
theorem c3prev_resolve (A₀ B : List Node) (pn x : Node)
    (hpw : refsUnique (A₀ ++ pn :: x :: B)) :
    get_iter_from_persistent_ref [] (A₀ ++ pn :: B) pn.row.v = some [A₀.length] := by
  rw [get_iter_from_persistent_ref, convGet_nil]
  have hmemfull : pn.row.v ∈ valsF (A₀ ++ pn :: x :: B) := by
    rw [valsF_append, valsF_cons]
    exact List.mem_append_right _ (List.mem_append_left _ (head_mem_valsN pn))
  have hps := pairwise_match_spec _ pn.row.v hpw hmemfull
  have hsub : ∀ w ∈ valsF (A₀ ++ pn :: B), w ∈ valsF (A₀ ++ pn :: x :: B) := by
    intro w hw
    rw [valsF_append, valsF_cons] at hw
    rw [valsF_append, valsF_cons, valsF_cons]
    rcases List.mem_append.mp hw with h1 | h2
    · exact List.mem_append_left _ h1
    · rcases List.mem_append.mp h2 with h3 | h4
      · exact List.mem_append_right _ (List.mem_append_left _ h3)
      · exact List.mem_append_right _ (List.mem_append_right _
          (List.mem_append_right _ h4))
  apply findF_rt (A₀ ++ pn :: B) [A₀.length] pn pn.row.v (getAt_middle A₀ B pn)
    (matchesRef_self _)
  · intro w hw hm
    exact hps.1 w (hsub w hw) hm
  · have h2 := hps.2
    have hc : (valsF (A₀ ++ pn :: B)).count pn.row.v ≤
        (valsF (A₀ ++ pn :: x :: B)).count pn.row.v := by
      rw [valsF_append, valsF_cons, valsF_append, valsF_cons, valsF_cons]
      simp only [List.count_append]
      omega
    omega

/-- A `None` previous reference resolves to nothing when no row holds
`None` in column 0. -/
theorem c3vnone_resolve (B f₀ : Forest)
    (hnone : Value.vnone ∉ valsF f₀)
    (hsub : ∀ w ∈ valsF B, w ∈ valsF f₀) :
    get_iter_from_persistent_ref [] B Value.vnone = none := by
  rw [get_iter_from_persistent_ref, convGet_nil]
  apply findF_none
  intro w hw
  exact matchesRef_vnone_of_ne w (fun h => hnone (h ▸ hsub w hw))

/-- Removing a top-level row keeps a forest at most two levels deep,
so the undo's previous-reference search also runs on a model where
`get_iter_loop_eq` applies. -/
theorem flat2F_delete (A B : List Node) (n : Node)
    (h : flat2F (A ++ n :: B) = true) : flat2F (A ++ B) = true := by
  rw [flat2F] at h ⊢
  rw [List.all_eq_true] at h ⊢
  intro x hx
  rcases List.mem_append.mp hx with hA | hB
  · exact h x (List.mem_append_left _ hA)
  · exact h x (List.mem_append_right _ (List.mem_cons_of_mem _ hB))

/-- What `delete_iters` captures for a single childless, unexpanded
row. -/
theorem captureDeleteInfo_single (f : Forest) (i : Nat) (r : Row)
    (hget : getAt f [i] = some (.mk r false [])) :
    captureDeleteInfo f [[i]] =
      ([r.v],
       [⟨getRowdict (.mk r false []),
         match getPrevPath [i] with
         | some pp => valueAt f pp
         | none => Value.vnone,
         r.v, [], false⟩]) := by
  rw [captureDeleteInfo]
  simp only [List.foldl_cons, List.foldl_nil]
  simp [hget, getUndoInfoForIter, Node.row, Node.children, Node.expanded]

/-- **C3** (amended): for a single selected childless, unexpanded
top-level row — a group header with consistent columns, an
ingredient-object row whose columns are consistent with its backing
object, or an integer placeholder row — in a model at most two levels
deep with unambiguous references, no `None` column-0 value and an empty
`commited_items_converter`, `delete_iters` followed by the inverse
action it registered restores the tree exactly.  The depth bound
`flat2F` confines the claim to forests where every
persistent-reference search of the round trip coincides with the exact
model of the source's one-level-climb loop: `get_iter_loop_eq` proves
the searches equal on the original forest, and `flat2F_delete` shows
the forest the undo searches is again at most two levels deep. -/
theorem C3_single_row_roundtrip (st : EditorState) (A B : List Node) (r : Row)
    (hf : st.ctl.forest = A ++ (.mk r false []) :: B)
    (hconv : st.ctl.conv = [])
    (huniq : refsUnique st.ctl.forest)
    (hnone : Value.vnone ∉ valsF st.ctl.forest)
    (hflat : flat2F st.ctl.forest = true)
    (hkind :
      (∃ g, r.v = .strv ("GROUP " ++ g) ∧ r.amt = some g ∧ r.unit = none ∧
        r.item = none ∧ r.opt = false) ∨
      (∃ o a, r.v = .obj o ∧ r.amt = some a ∧
        (r.unit = none → o.unit = .none) ∧ (r.item = none → o.item = .none)) ∨
      (∃ m, r.v = .intv m)) :
    ((deleteItersEntry st [[A.length]] false).inverse_action
        ((delete_iters st [[A.length]] false).ctl)).forest = st.ctl.forest := by
  obtain ⟨⟨f₀, cnt, cv, objs⟩, hist⟩ := st
  dsimp only at hf hconv huniq hnone ⊢
  subst hf
  subst hconv
  rw [delete_iters, deleteItersEntry]
  dsimp only [UndoableObject.perform]
  have hget := getAt_middle A B (.mk r false [])
  rw [captureDeleteInfo_single (A ++ (.mk r false []) :: B) A.length r hget]
  dsimp only
  have hfind : get_iter_from_persistent_ref [] (A ++ (.mk r false []) :: B) r.v
      = some [A.length] := c3find_self A B (.mk r false []) huniq
  have hdel : doDeleteIters [] [r.v] (A ++ (.mk r false []) :: B) = A ++ B := by
    rw [doDeleteIters]
    simp only [List.foldl_cons, List.foldl_nil]
    rw [hfind]
    dsimp only
    rw [removeAt]
    exact eraseIdx_middle A B _
  rw [hdel]
  rcases List.eq_nil_or_concat A with rfl | ⟨A₀, pn, rfl⟩
  · simp only [List.nil_append, List.length_nil] at huniq hnone ⊢
    have hgp : getPrevPath [0] = none := by decide
    rw [hgp]
    dsimp only
    have hsubB : ∀ w ∈ valsF B, w ∈ valsF ((Node.mk r false []) :: B) := by
      intro w hw
      rw [valsF_cons]
      exact List.mem_append_right _ hw
    have hprev0 : get_iter_from_persistent_ref [] B Value.vnone = none :=
      c3vnone_resolve B _ hnone hsubB
    rcases hkind with ⟨g, hv, hamt, hu, hit, ho⟩ | ⟨o, a, hv, hamt, hu, hi⟩ | ⟨m, hv⟩
    · have hr : r = ⟨.strv ("GROUP " ++ g), some g, none, none, false⟩ := by
        obtain ⟨rv, ra, ru, ri, ro⟩ := r
        simp only at hv hamt hu hit ho
        rw [hv, hamt, hu, hit, ho]
      have hond := undeleteOne_group cnt objs B _ 0 none Value.vnone r g hv hamt hprev0
        (addGroup_none B g)
      rw [doUndeleteTotal_single _ _ _ hond]
      dsimp only
      rw [← hr]
    · have hnew0 : newIter B none none false =
          (([] : List Node) ++ (.mk blankRow false []) :: B,
            [List.length ([] : List Node)]) := by
        simpa using newIter_none B
      have hond := undeleteOne_obj cnt objs B [] B none Value.vnone r o a hv hamt
        hu hi hprev0 hnew0
      rw [doUndeleteTotal_single _ _ _ hond]
      simp
    · have hnew0 : newIter B none none false =
          (([] : List Node) ++ (.mk blankRow false []) :: B,
            [List.length ([] : List Node)]) := by
        simpa using newIter_none B
      have hond := undeleteOne_intv cnt objs B [] B none Value.vnone r m hv
        hprev0 hnew0
      rw [doUndeleteTotal_single _ _ _ hond]
      simp
  · simp only [List.concat_eq_append, List.append_assoc, List.singleton_append,
      List.length_append, List.length_singleton] at huniq hnone ⊢
    have hgp : getPrevPath [A₀.length + 1] = some [A₀.length] := by
      simp [getPrevPath, pathPrev]
    rw [hgp]
    dsimp only
    have hva : valueAt (A₀ ++ pn :: (.mk r false []) :: B) [A₀.length]
        = pn.row.v := by
      rw [valueAt, getAt_middle]
    rw [hva]
    have hprev2 : get_iter_from_persistent_ref [] (A₀ ++ pn :: B) pn.row.v
        = some [A₀.length] := c3prev_resolve A₀ B pn (.mk r false []) huniq
    rcases hkind with ⟨g, hv, hamt, hu, hit, ho⟩ | ⟨o, a, hv, hamt, hu, hi⟩ | ⟨m, hv⟩
    · have hr : r = ⟨.strv ("GROUP " ++ g), some g, none, none, false⟩ := by
        obtain ⟨rv, ra, ru, ri, ro⟩ := r
        simp only at hv hamt hu hit ho
        rw [hv, hamt, hu, hit, ho]
      have hond := undeleteOne_group cnt objs (A₀ ++ pn :: B) _ (A₀.length + 1)
        (some [A₀.length]) pn.row.v r g hv hamt hprev2 (addGroup_after A₀ B pn g)
      rw [doUndeleteTotal_single _ _ _ hond]
      dsimp only
      rw [← hr]
    · have hnew2 : newIter (A₀ ++ pn :: B) none (some [A₀.length]) false =
          ((A₀ ++ [pn]) ++ (.mk blankRow false []) :: B, [(A₀ ++ [pn]).length]) := by
        rw [newIter_after]
        simp
      have hond := undeleteOne_obj cnt objs (A₀ ++ pn :: B) (A₀ ++ [pn]) B
        (some [A₀.length]) pn.row.v r o a hv hamt hu hi hprev2 hnew2
      rw [doUndeleteTotal_single _ _ _ hond]
      dsimp only
      simp
    · have hnew2 : newIter (A₀ ++ pn :: B) none (some [A₀.length]) false =
          ((A₀ ++ [pn]) ++ (.mk blankRow false []) :: B, [(A₀ ++ [pn]).length]) := by
        rw [newIter_after]
        simp
      have hond := undeleteOne_intv cnt objs (A₀ ++ pn :: B) (A₀ ++ [pn]) B
        (some [A₀.length]) pn.row.v r m hv hprev2 hnew2
      rw [doUndeleteTotal_single _ _ _ hond]
      dsimp only
      simp

/-- A stored ingredient object for the delete/undelete examples. -/
def c3objA : IngObject :=
  ⟨21, .str "1", .none, .str "oil", .str "oil", .int 0, .none, .none, false, "1"⟩

def c3nodeA : Node := .mk ⟨.obj c3objA, some "1", none, some "oil", false⟩ false []

def c3row : Row := ⟨.intv 5, some "2", none, some "salt", true⟩

def c3st : EditorState :=
  ⟨⟨[c3nodeA, .mk c3row false []], 7, [], [c3objA]⟩, []⟩

theorem C3_witness :
    ((deleteItersEntry c3st [[1]] false).inverse_action
        ((delete_iters c3st [[1]] false).ctl)).forest = c3st.ctl.forest := by
  have h := C3_single_row_roundtrip c3st [c3nodeA] [] c3row rfl rfl (by decide)
    (by decide) (by decide) (Or.inr (Or.inr ⟨5, rfl⟩))
  exact h

def c3objB : IngObject :=
  ⟨22, .str "2", .none, .str "salt", .str "salt", .int 1, .none, .none, false, "2"⟩

def c3objC : IngObject :=
  ⟨23, .str "3", .none, .str "rice", .str "rice", .int 2, .none, .none, false, "3"⟩

def c3state2 : EditorState :=
  ⟨⟨[c3nodeA,
     .mk ⟨.obj c3objB, some "2", none, some "salt", false⟩ false [],
     .mk ⟨.obj c3objC, some "3", none, some "rice", false⟩ false []],
    0, [], [c3objA, c3objB, c3objC]⟩, []⟩

/-- Deleting the rows at paths `[2]` and `[1]` (the bottom-up order
`delete_iter_cb` passes) and undoing does not restore the original
order: the row whose recorded previous sibling was itself deleted is
re-inserted at the front, giving `[c, a, b]` instead of `[a, b, c]`. -/
theorem C3_counterexample :
    ((deleteItersEntry c3state2 [[2], [1]] false).inverse_action
        ((delete_iters c3state2 [[2], [1]] false).ctl)).forest ≠
      c3state2.ctl.forest := by
  decide

end Gourmand
